import Mathlib

/-!
# arrays.hpp: array, heap_array and nc_array

A shallow embedding of the three containers of `src/arrays.hpp`.

Modelling conventions.
* `int` is `Int`. Signed overflow is undefined in C++, so the development speaks
  about executions in which every `int` value stays in range.
* A block of memory holding cells of type `t` is a `List t`; the block of
  `array<t,n>` has `n` cells, the block of `heap_array` has `capacity` cells
  (the empty list stands for the null pointer). A read outside the block is
  `none`, a write outside the block is dropped.
* `memcmp(&x, &y, sizeof(t)) == 0` on plain data is equality on `t`.
* `array_realloc` is an oracle handed to every call that may allocate:
  `none` is a failed allocation, `some junk` a successful one in which the
  `i`-th fresh cell holds `junk i`.
* `array_assertion` is compiled out (release build), as in the header's default.
-/

namespace Arrays

variable {t : Type} {n : Nat}

/-! ## Memory primitives -/

/-- Read of cell `i` of a block. -/
def load (buf : List t) (i : Int) : Option t :=
  if 0 ≤ i then buf[i.toNat]? else none

/-- Write of cell `i` of a block. -/
def store (buf : List t) (i : Int) (x : t) : List t :=
  if 0 ≤ i then buf.set i.toNat x else buf

/-- The call `memcpy(&buf[dst], &buf[src], len * sizeof(t))` inside one block,
as an ascending cell-by-cell copy. -/
def memcpy : List t → Nat → Nat → Nat → List t
  | buf, _, _, 0 => buf
  | buf, dst, src, len + 1 =>
    match buf[src]? with
    | some x => memcpy (buf.set dst x) (dst + 1) (src + 1) len
    | none => memcpy buf (dst + 1) (src + 1) len

/-- Writes the cells `xs` into `buf` from cell `dst` on. -/
def write : List t → Nat → List t → List t
  | buf, _, [] => buf
  | buf, dst, x :: xs => write (buf.set dst x) (dst + 1) xs

/-- The call `memmove(&buf[dst], &buf[src], len * sizeof(t))`: the source cells
are read first, then written. -/
def memmove (buf : List t) (dst src len : Nat) : List t :=
  write buf dst ((buf.drop src).take len)

/-- The call `memcpy(&dstbuf[dst], &srcbuf[src], len * sizeof(t))` between two
distinct blocks. -/
def memcpy_from (dstbuf : List t) (dst : Nat) (srcbuf : List t) (src len : Nat) : List t :=
  write dstbuf dst ((srcbuf.drop src).take len)

/-- The call `array_realloc(buf, c * sizeof(t))`. -/
def realloc (al : Option (Nat → t)) (buf : List t) (c : Int) : Option (List t) :=
  al.map fun junk => buf.take c.toNat ++ (List.range (c.toNat - buf.length)).map junk

/-- The loop `for (i = ..; i < count; i++) if (memcmp(&a[i], &e, sizeof(t)) == 0) return i;`
followed by `return -1`, started at `i` with `k` iterations left. -/
def scan [DecidableEq t] (buf : List t) (e : t) : Nat → Nat → Int
  | _, 0 => -1
  | i, k + 1 => if buf[i]? = some e then (i : Int) else scan buf e (i + 1) k

/-! ## array<t, n> -/

/-- The fields `t a[n]; int count;` of `array<t,n>`. -/
structure array (t : Type) (n : Nat) where
  a : List t
  count : Int
deriving DecidableEq

/-- The constructor `array() : count(0)`; `mem` is the content of the
uninitialised storage. -/
def array.new (mem : List t) : array t n := { a := mem, count := 0 }

def array.get (s : array t n) (i : Int) : Option t := load s.a i

def array.set (s : array t n) (i : Int) (x : t) : array t n := { s with a := store s.a i x }

def array.add (s : array t n) (e : t) : Bool × array t n :=
  if s.count = n then (false, s)
  else (true, { a := store s.a s.count e, count := s.count + 1 })

def array.index_of [DecidableEq t] (s : array t n) (e : t) : Int :=
  scan s.a e 0 s.count.toNat

def array.remove_at (s : array t n) (i : Int) : array t n :=
  { a := if i < s.count - 1 then memcpy s.a i.toNat (i + 1).toNat (s.count - 1 - i).toNat else s.a,
    count := s.count - 1 }

def array.remove [DecidableEq t] (s : array t n) (e : t) : Bool × array t n :=
  let i := s.index_of e
  (decide (i ≥ 0), if i ≥ 0 then s.remove_at i else s)

def array.reserve (s : array t n) (k : Int) : Bool × array t n := (decide (0 ≤ k ∧ k < n), s)

def array.resize (s : array t n) (k : Int) : Bool × array t n :=
  let b := decide (0 ≤ k ∧ k < n)
  (b, if b then { s with count := k } else s)

def array.clear (s : array t n) : array t n := { s with count := 0 }

def array.size (s : array t n) : Int := s.count

/-- The call `cast()` returns `a`: the view is the storage block. -/
def array.cast (s : array t n) : List t := s.a

/-! ## heap_array<t> -/

/-- The fields `t* a; int count; int capacity;` of `heap_array<t>`. -/
structure heap_array (t : Type) where
  a : List t
  count : Int
  capacity : Int
deriving DecidableEq

/-- The constructor `heap_array() : a(null), count(0), capacity(0)`. -/
def heap_array.new : heap_array t := { a := [], count := 0, capacity := 0 }

def heap_array.get (s : heap_array t) (i : Int) : Option t := load s.a i

def heap_array.set (s : heap_array t) (i : Int) (x : t) : heap_array t :=
  { s with a := store s.a i x }

def heap_array.reserve (s : heap_array t) (al : Option (Nat → t)) (c : Int) :
    Bool × heap_array t :=
  if c > s.capacity then
    match realloc al s.a c with
    | some m => (true, { s with a := m, capacity := c })
    | none => (false, s)
  else (true, s)

def heap_array.resize (s : heap_array t) (al : Option (Nat → t)) (k : Int) :
    Bool × heap_array t :=
  let r := s.reserve al k
  (r.1, if r.1 then { r.2 with count := k } else r.2)

def heap_array.add (s : heap_array t) (al : Option (Nat → t)) (e : t) :
    Bool × heap_array t :=
  let r := if s.count < s.capacity then (true, s)
    else s.reserve al (if s.capacity = 0 then 16 else s.capacity + s.capacity)
  (r.1, if r.1 then { r.2 with a := store r.2.a r.2.count e, count := r.2.count + 1 } else r.2)

def heap_array.index_of [DecidableEq t] (s : heap_array t) (e : t) : Int :=
  scan s.a e 0 s.count.toNat

def heap_array.remove_at (s : heap_array t) (i : Int) : heap_array t :=
  { s with
    a := if i < s.count - 1 then memcpy s.a i.toNat (i + 1).toNat (s.count - 1 - i).toNat
      else s.a,
    count := s.count - 1 }

def heap_array.remove [DecidableEq t] (s : heap_array t) (e : t) : Bool × heap_array t :=
  let i := s.index_of e
  (decide (i ≥ 0), if i ≥ 0 then s.remove_at i else s)

def heap_array.clear (s : heap_array t) : heap_array t := { s with count := 0 }

def heap_array.size (s : heap_array t) : Int := s.count

/-- The call `cast()` returns `a`: the view is the heap block. -/
def heap_array.cast (s : heap_array t) : List t := s.a

/-! ## nc_array<t, n> -/

/-- The fields `array<t,n> a; heap_array<t> v;` of `nc_array<t,n>`. -/
structure nc_array (t : Type) (n : Nat) where
  a : array t n
  v : heap_array t
deriving DecidableEq

/-- The constructor `nc_array()`; `mem` is the content of the uninitialised
inline storage. -/
def nc_array.new (mem : List t) : nc_array t n := { a := array.new mem, v := heap_array.new }

def nc_array.size (s : nc_array t n) : Int := s.a.size + s.v.size

def nc_array.get (s : nc_array t n) (i : Int) : Option t :=
  if i < s.a.size then s.a.get i else s.v.get (i - s.a.size)

def nc_array.add (s : nc_array t n) (al : Option (Nat → t)) (e : t) : Bool × nc_array t n :=
  if s.a.size > 0 ∨ s.size ≥ n then
    let r := s.v.add al e
    (r.1, { s with v := r.2 })
  else
    let r := s.a.add e
    (r.1, { s with a := r.2 })

def nc_array.index_of [DecidableEq t] (s : nc_array t n) (e : t) : Int :=
  let i := s.a.index_of e
  if i ≥ 0 then i
  else
    let j := s.v.index_of e
    if j < 0 then j else j + s.a.size

def nc_array.remove_at (s : nc_array t n) (i : Int) : nc_array t n :=
  if s.v.size = 0 then
    { s with a := s.a.remove_at i }
  else if i < s.a.size then
    let a1 := s.a.remove_at i
    let a2 := match s.v.get 0 with
      | some x => (a1.add x).2
      | none => a1
    { a := a2, v := s.v.remove_at 0 }
  else
    { s with v := s.v.remove_at (i - s.a.size) }

def nc_array.remove [DecidableEq t] (s : nc_array t n) (e : t) : Bool × nc_array t n :=
  let i := s.index_of e
  (decide (i ≥ 0), if i ≥ 0 then s.remove_at i else s)

def nc_array.reserve (s : nc_array t n) (al : Option (Nat → t)) (c : Int) :
    Bool × nc_array t n :=
  if s.a.size = 0 then
    let r := s.v.reserve al c
    (r.1, { s with v := r.2 })
  else if c > n then
    let r := s.v.reserve al (c - n)
    (r.1, { s with v := r.2 })
  else (true, s)

def nc_array.resize (s : nc_array t n) (al : Option (Nat → t)) (c : Int) :
    Bool × nc_array t n :=
  if s.a.size = 0 then
    let r := s.v.resize al c
    (r.1, { s with v := r.2 })
  else if c > n then
    let r := s.v.resize al (c - n)
    (r.1, { s with v := r.2 })
  else
    let r := s.a.resize c
    (r.1, { a := r.2, v := s.v.clear })

def nc_array.clear (s : nc_array t n) : nc_array t n := { a := s.a.clear, v := s.v.clear }

/-- The call `cast()`: the returned pointer is modelled by the block it points
to, as it stands when the call returns. The oracle `al1` serves `v.reserve(k)`
and `al2` the `reserve` inside `v.resize(k)`. -/
def nc_array.cast (s : nc_array t n) (al1 al2 : Option (Nat → t)) : List t × nc_array t n :=
  if s.v.size = 0 then (s.a.a, s)
  else if s.a.size > 0 then
    let k := s.size
    let v1 := (s.v.reserve al1 k).2
    let m1 := if v1.size - s.a.size > 0
      then memmove v1.a s.a.size.toNat 0 (v1.size - s.a.size).toNat
      else v1.a
    let m2 := memcpy_from m1 0 s.a.a 0 s.a.size.toNat
    let a1 := s.a.clear
    let v2 := (({ v1 with a := m2 } : heap_array t).resize al2 k).2
    (v2.a, { a := a1, v := v2 })
  else (s.v.a, s)

/-! ## Call sequences -/

/-- The loop `for (x : xs) a.add(x)`, each call with its own successful
allocation oracle; returns the list of return values and the final state. -/
def nc_array.add_all (s : nc_array t n) : List ((Nat → t) × t) → List Bool × nc_array t n
  | [] => ([], s)
  | (j, x) :: xs =>
    let r := s.add (some j) x
    let rest := nc_array.add_all r.2 xs
    (r.1 :: rest.1, rest.2)

/-- One call of the mutating interface exercised by `test_array`. -/
inductive op (t : Type) where
  | add (al : Option (Nat → t)) (e : t)
  | remove_at (i : Int)
  | remove (e : t)

/-- Runs a call sequence on an `nc_array`; returns the number of `add` calls
that returned true, the number of removals performed (every `remove_at`, and
every `remove` that returned true), and the final state. -/
def nc_array.run [DecidableEq t] (s : nc_array t n) : List (op t) → Int × Int × nc_array t n
  | [] => (0, 0, s)
  | op.add al e :: r =>
    let x := s.add al e
    let y := nc_array.run x.2 r
    ((if x.1 then 1 else 0) + y.1, y.2.1, y.2.2)
  | op.remove_at i :: r =>
    let y := nc_array.run (s.remove_at i) r
    (y.1, 1 + y.2.1, y.2.2)
  | op.remove e :: r =>
    let x := s.remove e
    let y := nc_array.run x.2 r
    (y.1, (if x.1 then 1 else 0) + y.2.1, y.2.2)

/-- Every `remove_at(i)` of the sequence is called with `0 <= i < size()`, the
condition of its `array_assertion`. -/
def nc_array.valid [DecidableEq t] (s : nc_array t n) : List (op t) → Bool
  | [] => true
  | op.add al e :: r => nc_array.valid (s.add al e).2 r
  | op.remove_at i :: r => decide (0 ≤ i ∧ i < s.size) && nc_array.valid (s.remove_at i) r
  | op.remove e :: r => nc_array.valid (s.remove e).2 r

/-- The loop `for (x : xs) v.add(x)` on a `heap_array`, each call with its own
successful allocation oracle; returns the number of calls in which the block
was reallocated (the capacity changed) and the final state. -/
def heap_array.add_all (s : heap_array t) : List ((Nat → t) × t) → Nat × heap_array t
  | [] => (0, s)
  | (j, x) :: xs =>
    let r := (s.add (some j) x).2
    let rest := heap_array.add_all r xs
    ((if r.capacity = s.capacity then 0 else 1) + rest.1, rest.2)

/-- One call of the interface shared by `array` and `heap_array`; `al` is the
allocation oracle of the call (unused by `array`). -/
inductive leaf_op (t : Type) where
  | get (i : Int)
  | set (i : Int) (x : t)
  | add (al : Option (Nat → t)) (e : t)
  | index_of (e : t)
  | remove_at (i : Int)
  | remove (e : t)
  | reserve (al : Option (Nat → t)) (k : Int)
  | resize (al : Option (Nat → t)) (k : Int)
  | clear
  | cast

/-- The precondition of a call on a container holding `count` elements: the
index conditions of the `array_assertion`s, and a non-negative argument of
`reserve` and `resize`. -/
def leaf_op.pre (count : Int) : leaf_op t → Bool
  | leaf_op.get i => decide (0 ≤ i ∧ i < count)
  | leaf_op.set i _ => decide (0 ≤ i ∧ i < count)
  | leaf_op.remove_at i => decide (0 ≤ i ∧ i < count)
  | leaf_op.reserve _ k => decide (0 ≤ k)
  | leaf_op.resize _ k => decide (0 ≤ k)
  | _ => true

/-- The state of an `array` after one call. -/
def array.step [DecidableEq t] (s : array t n) : leaf_op t → array t n
  | leaf_op.get _ => s
  | leaf_op.set i x => s.set i x
  | leaf_op.add _ e => (s.add e).2
  | leaf_op.index_of _ => s
  | leaf_op.remove_at i => s.remove_at i
  | leaf_op.remove e => (s.remove e).2
  | leaf_op.reserve _ k => (s.reserve k).2
  | leaf_op.resize _ k => (s.resize k).2
  | leaf_op.clear => s.clear
  | leaf_op.cast => s

/-- The state of an `array` after a call sequence. -/
def array.steps [DecidableEq t] (s : array t n) : List (leaf_op t) → array t n
  | [] => s
  | o :: r => array.steps (s.step o) r

/-- Every call of the sequence is made within its precondition. -/
def array.steps_ok [DecidableEq t] (s : array t n) : List (leaf_op t) → Bool
  | [] => true
  | o :: r => o.pre s.count && array.steps_ok (s.step o) r

/-- The state of a `heap_array` after one call. -/
def heap_array.step [DecidableEq t] (s : heap_array t) : leaf_op t → heap_array t
  | leaf_op.get _ => s
  | leaf_op.set i x => s.set i x
  | leaf_op.add al e => (s.add al e).2
  | leaf_op.index_of _ => s
  | leaf_op.remove_at i => s.remove_at i
  | leaf_op.remove e => (s.remove e).2
  | leaf_op.reserve al k => (s.reserve al k).2
  | leaf_op.resize al k => (s.resize al k).2
  | leaf_op.clear => s.clear
  | leaf_op.cast => s

/-- The state of a `heap_array` after a call sequence. -/
def heap_array.steps [DecidableEq t] (s : heap_array t) : List (leaf_op t) → heap_array t
  | [] => s
  | o :: r => heap_array.steps (s.step o) r

/-- Every call of the sequence is made within its precondition. -/
def heap_array.steps_ok [DecidableEq t] (s : heap_array t) : List (leaf_op t) → Bool
  | [] => true
  | o :: r => o.pre s.count && heap_array.steps_ok (s.step o) r

/-- One call on an `nc_array`, `resize` excluded. -/
inductive call (t : Type) where
  | add (al : Option (Nat → t)) (e : t)
  | remove_at (i : Int)
  | remove (e : t)
  | clear
  | reserve (al : Option (Nat → t)) (c : Int)
  | cast (al1 al2 : Option (Nat → t))

/-- The state of an `nc_array` after one call. -/
def nc_array.step [DecidableEq t] (s : nc_array t n) : call t → nc_array t n
  | call.add al e => (s.add al e).2
  | call.remove_at i => s.remove_at i
  | call.remove e => (s.remove e).2
  | call.clear => s.clear
  | call.reserve al c => (s.reserve al c).2
  | call.cast al1 al2 => (s.cast al1 al2).2

/-- The state of an `nc_array` after a call sequence. -/
def nc_array.steps [DecidableEq t] (s : nc_array t n) : List (call t) → nc_array t n
  | [] => s
  | c :: r => nc_array.steps (s.step c) r

/-- Every `remove_at(i)` of the sequence is called with `0 <= i < size()`. -/
def nc_array.steps_ok [DecidableEq t] (s : nc_array t n) : List (call t) → Bool
  | [] => true
  | call.remove_at i :: r =>
    decide (0 ≤ i ∧ i < s.size) && nc_array.steps_ok (s.remove_at i) r
  | c :: r => nc_array.steps_ok (s.step c) r

/-! ## Representation invariants -/

/-- The storage of `array<t,n>` has `n` cells and `0 <= count <= n`. -/
@[reducible] def array.wf (s : array t n) : Prop :=
  0 ≤ s.count ∧ s.count ≤ n ∧ s.a.length = n

/-- The block of `heap_array` has `capacity` cells and `0 <= count <= capacity`. -/
@[reducible] def heap_array.wf (s : heap_array t) : Prop :=
  0 ≤ s.count ∧ s.count ≤ s.capacity ∧ (s.a.length : Int) = s.capacity

/-- Both segments of `nc_array` are well formed. -/
@[reducible] def nc_array.wf (s : nc_array t n) : Prop := s.a.wf ∧ s.v.wf

/-! ## Concrete states of the scenarios -/

/-- An allocator that hands out zeroed cells. -/
def zeroed : Nat → Int := fun _ => 0

/-- Scenario A: `nc_array<int,4>` after `add` of 0, 1, 2, 3. -/
def scenario_A : nc_array Int 4 :=
  ((nc_array.new [7, 7, 7, 7]).add_all [(zeroed, 0), (zeroed, 1), (zeroed, 2), (zeroed, 3)]).2

/-- Scenario A continued: after the further `add` of 4. -/
def scenario_A5 : nc_array Int 4 := (scenario_A.add (some zeroed) 4).2

/-- Scenario C: `array<int,3>` after `add` of 10, 20, 30. -/
def scenario_C : array Int 3 :=
  ((((array.new [7, 7, 7] : array Int 3).add 10).2.add 20).2.add 30).2

/-- Scenario D: `nc_array<int,2>` after `add` of 1, 2, 3, 4, 5. -/
def scenario_D : nc_array Int 2 :=
  ((nc_array.new [7, 7]).add_all
    [(zeroed, 1), (zeroed, 2), (zeroed, 3), (zeroed, 4), (zeroed, 5)]).2

/-- A `heap_array<int>` after `add` of 5, 6, 6. -/
def heap_566 : heap_array Int :=
  (((heap_array.new.add (some zeroed) 5).2.add (some zeroed) 6).2.add (some zeroed) 6).2

/-- An `nc_array<int,4>` after `add` of 1, 2: both segments hold one element. -/
def both_segments : nc_array Int 4 :=
  ((nc_array.new [7, 7, 7, 7]).add_all [(zeroed, 1), (zeroed, 2)]).2

/-- The state `both_segments` after `cast()`. -/
def after_cast : nc_array Int 4 := (both_segments.cast (some zeroed) (some zeroed)).2

/-- The state `after_cast` after a further `add` of 9. -/
def after_cast_add : nc_array Int 4 := (after_cast.add (some zeroed) 9).2

/-- Three `add` calls on an `nc_array<int,2>`: the third is the (n+1)-th. -/
def three_adds : List ((Nat → Int) × Int) := [(zeroed, 1), (zeroed, 2), (zeroed, 3)]

/-- A call sequence mixing `add`, `remove_at` and `remove`. -/
def mixed_calls : List (op Int) :=
  [op.add (some zeroed) 9, op.remove_at 0, op.remove 3, op.remove 42]

/-- An `nc_array<int,2>` after `add` of 1, 2, 3. -/
def three_in_two : nc_array Int 2 := ((nc_array.new [7, 7]).add_all three_adds).2

/-- A call sequence on an `nc_array` without `resize`. -/
def router_calls : List (call Int) :=
  [call.add (some zeroed) 1, call.add (some zeroed) 2, call.add (some zeroed) 3,
    call.remove_at 0, call.reserve (some zeroed) 40, call.cast (some zeroed) none,
    call.remove 3, call.add none 4, call.clear, call.add (some zeroed) 5]

theorem memcpy_length (len : Nat) : ∀ (buf : List t) (d s : Nat),
    (memcpy buf d s len).length = buf.length := by
  induction len with
  | zero => intro buf d s; rfl
  | succ k ih =>
    intro buf d s
    unfold memcpy
    cases h : buf[s]? with
    | none => simp [ih]
    | some x => simp [ih]

theorem memcpy_get (len : Nat) : ∀ (buf : List t) (d j : Nat), d + len < buf.length →
    (memcpy buf d (d + 1) len)[j]? = if d ≤ j ∧ j < d + len then buf[j + 1]? else buf[j]? := by
  induction len with
  | zero =>
    intro buf d j _
    have h0 : ¬ (d ≤ j ∧ j < d + 0) := by omega
    simp only [memcpy, h0, if_false]
  | succ k ih =>
    intro buf d j h
    have hx : buf[d + 1]? = some (buf[d + 1]) := List.getElem?_eq_getElem (by omega)
    unfold memcpy
    rw [hx]
    simp only
    rw [ih (buf.set d buf[d + 1]) (d + 1) j (by simp; omega)]
    simp only [List.getElem?_set]
    by_cases h1 : d + 1 ≤ j ∧ j < d + 1 + k
    · have h2 : d ≤ j ∧ j < d + (k + 1) := by omega
      have h3 : ¬ d = j + 1 := by omega
      simp [h1, h2, h3]
    · by_cases h4 : d = j
      · subst h4
        have h5 : d < buf.length := by omega
        simp [h5, hx]
      · have h2 : ¬ (d ≤ j ∧ j < d + (k + 1)) := by omega
        simp [h1, h2, h4]


theorem load_nat (buf : List t) (i : Int) (h : 0 ≤ i) : load buf i = buf[i.toNat]? := by
  simp [load, h]

theorem store_get (buf : List t) (i : Int) (x : t) (j : Nat) (h : 0 ≤ i) :
    (store buf i x)[j]? = if i.toNat = j then (if j < buf.length then some x else none) else buf[j]? := by
  simp only [store, h, if_true, List.getElem?_set]
  by_cases hj : i.toNat = j
  · subst hj; simp
  · simp [hj]

theorem store_length (buf : List t) (i : Int) (x : t) : (store buf i x).length = buf.length := by
  unfold store; split <;> simp

theorem scan_spec [DecidableEq t] (buf : List t) (e : t) (k : Nat) : ∀ i : Nat,
    (scan buf e i k = -1 ∧ ∀ j, i ≤ j → j < i + k → buf[j]? ≠ some e) ∨
    (∃ r : Nat, scan buf e i k = (r : Int) ∧ i ≤ r ∧ r < i + k ∧ buf[r]? = some e ∧
      ∀ j, i ≤ j → j < r → buf[j]? ≠ some e) := by
  induction k with
  | zero =>
    intro i
    left
    exact ⟨rfl, fun j h1 h2 => by omega⟩
  | succ k ih =>
    intro i
    unfold scan
    by_cases h : buf[i]? = some e
    · right
      refine ⟨i, by simp [h], le_refl _, by omega, h, fun j h1 h2 => by omega⟩
    · rw [if_neg h]
      rcases ih (i + 1) with ⟨h1, h2⟩ | ⟨r, h1, h2, h3, h4, h5⟩
      · left
        refine ⟨h1, fun j hj1 hj2 => ?_⟩
        by_cases hij : j = i
        · subst hij; exact h
        · exact h2 j (by omega) (by omega)
      · right
        refine ⟨r, h1, by omega, by omega, h4, fun j hj1 hj2 => ?_⟩
        by_cases hij : j = i
        · subst hij; exact h
        · exact h5 j (by omega) hj2

/-- The block left by the shift of `remove_at`. -/
theorem shift_length (buf : List t) (count i : Int) :
    (if i < count - 1 then memcpy buf i.toNat (i + 1).toNat (count - 1 - i).toNat
      else buf).length = buf.length := by
  split
  · exact memcpy_length _ _ _ _
  · rfl

theorem shift_get (buf : List t) (count i : Int) (h0 : 0 ≤ i) (h1 : i < count)
    (h2 : count ≤ buf.length) :
    (∀ j : Int, 0 ≤ j → j < i →
      load (if i < count - 1 then memcpy buf i.toNat (i + 1).toNat (count - 1 - i).toNat
        else buf) j = load buf j) ∧
    (∀ j : Int, i < j → j < count →
      load (if i < count - 1 then memcpy buf i.toNat (i + 1).toNat (count - 1 - i).toNat
        else buf) (j - 1) = load buf j) := by
  by_cases hc : i < count - 1
  · have e1 : (i + 1).toNat = i.toNat + 1 := by omega
    have hb : i.toNat + (count - 1 - i).toNat < buf.length := by omega
    simp only [hc, if_true, e1]
    constructor
    · intro j hj0 hj1
      rw [load_nat _ _ hj0, load_nat _ _ hj0, memcpy_get _ _ _ _ hb]
      have : ¬ (i.toNat ≤ j.toNat ∧ j.toNat < i.toNat + (count - 1 - i).toNat) := by omega
      rw [if_neg this]
    · intro j hj0 hj1
      rw [load_nat _ _ (by omega), load_nat _ _ (by omega), memcpy_get _ _ _ _ hb]
      have : i.toNat ≤ (j - 1).toNat ∧ (j - 1).toNat < i.toNat + (count - 1 - i).toNat := by omega
      rw [if_pos this]
      have e2 : (j - 1).toNat + 1 = j.toNat := by omega
      rw [e2]
  · rw [if_neg hc]
    exact ⟨fun j _ _ => rfl, fun j hj0 hj1 => by omega⟩

/-- C9 — array::add on a state with 0 <= count <= n returns true iff count < n;
on success the element is appended (count grows by one, cells below the old
count keep their values, cell count holds e); on failure the state is unchanged
and size() stays n. -/
theorem array_add_spec (s : array t n) (e : t) (h : s.wf) :
    ((s.add e).1 = true ↔ s.count < n) ∧
    (s.count < n →
      (s.add e).2.size = s.size + 1 ∧
      (∀ i : Int, 0 ≤ i → i < s.count → (s.add e).2.get i = s.get i) ∧
      (s.add e).2.get s.count = some e) ∧
    (¬ s.count < n → (s.add e).2 = s ∧ (s.add e).2.size = n) := by
  obtain ⟨h0, h1, h2⟩ := h
  by_cases hc : s.count = n
  · have hlt : ¬ s.count < n := by omega
    simp [array.add, hc, array.size]
  · have hlt : s.count < n := by omega
    simp only [array.add, hc, if_false, array.size, array.get, hlt, true_iff, not_true_eq_false,
      false_implies, and_true, true_implies, true_and]
    constructor
    · intro i hi0 hi1
      rw [load_nat _ _ hi0, load_nat _ _ hi0, store_get _ _ _ _ h0]
      have : ¬ s.count.toNat = i.toNat := by omega
      rw [if_neg this]
    · rw [load_nat _ _ h0, store_get _ _ _ _ h0]
      have : s.count.toNat < s.a.length := by omega
      simp [this]

theorem array_add_spec_witness :
    scenario_C.wf ∧
    ((scenario_C.add 40).1 = true ↔ scenario_C.count < (3 : Nat)) ∧
    (scenario_C.count < (3 : Nat) →
      (scenario_C.add 40).2.size = scenario_C.size + 1 ∧
      (∀ i : Int, 0 ≤ i → i < scenario_C.count →
        (scenario_C.add 40).2.get i = scenario_C.get i) ∧
      (scenario_C.add 40).2.get scenario_C.count = some 40) ∧
    (¬ scenario_C.count < (3 : Nat) →
      (scenario_C.add 40).2 = scenario_C ∧ (scenario_C.add 40).2.size = (3 : Nat)) :=
  ⟨by decide, array_add_spec scenario_C 40 (by decide)⟩

/-- C10 — remove_at(i) with 0 <= i < count on array and on heap_array erases
cell i: cells below i keep their values, the cell formerly at j > i is now at
j - 1, count drops by one, and the capacity of heap_array is unchanged. -/
theorem leaf_remove_at_spec (s : array t n) (v : heap_array t) (i k : Int)
    (hs : s.wf) (hi : 0 ≤ i ∧ i < s.count) (hv : v.wf) (hk : 0 ≤ k ∧ k < v.count) :
    ((s.remove_at i).size = s.size - 1 ∧
      (∀ j : Int, 0 ≤ j → j < i → (s.remove_at i).get j = s.get j) ∧
      (∀ j : Int, i < j → j < s.count → (s.remove_at i).get (j - 1) = s.get j)) ∧
    ((v.remove_at k).size = v.size - 1 ∧
      (v.remove_at k).capacity = v.capacity ∧
      (∀ j : Int, 0 ≤ j → j < k → (v.remove_at k).get j = v.get j) ∧
      (∀ j : Int, k < j → j < v.count → (v.remove_at k).get (j - 1) = v.get j)) := by
  obtain ⟨_, hs1, hs2⟩ := hs
  obtain ⟨_, hv1, hv2⟩ := hv
  have A := shift_get s.a s.count i hi.1 hi.2 (by omega)
  have B := shift_get v.a v.count k hk.1 hk.2 (by omega)
  exact ⟨⟨rfl, A.1, A.2⟩, ⟨rfl, rfl, B.1, B.2⟩⟩


theorem scan_index [DecidableEq t] (buf : List t) (e : t) (count : Int) :
    (scan buf e 0 count.toNat = -1 ∧ ∀ i : Int, 0 ≤ i → i < count → load buf i ≠ some e) ∨
    (0 ≤ scan buf e 0 count.toNat ∧ scan buf e 0 count.toNat < count ∧
      load buf (scan buf e 0 count.toNat) = some e ∧
      ∀ j : Int, 0 ≤ j → j < scan buf e 0 count.toNat → load buf j ≠ some e) := by
  rcases scan_spec buf e count.toNat 0 with ⟨h1, h2⟩ | ⟨r, h1, _, h3, h4, h5⟩
  · left
    refine ⟨h1, fun i hi0 hi1 => ?_⟩
    rw [load_nat _ _ hi0]
    exact h2 i.toNat (by omega) (by omega)
  · right
    rw [h1]
    refine ⟨by omega, by omega, ?_, fun j hj0 hj1 => ?_⟩
    · rw [load_nat _ _ (by omega)]
      simpa using h4
    · rw [load_nat _ _ hj0]
      exact h5 j.toNat (by omega) (by omega)

theorem index_shape (get : Int → Option t) (size r : Int) (e : t)
    (h : (r = -1 ∧ ∀ i : Int, 0 ≤ i → i < size → get i ≠ some e) ∨
      (0 ≤ r ∧ r < size ∧ get r = some e ∧ ∀ j : Int, 0 ≤ j → j < r → get j ≠ some e)) :
    (r = -1 ↔ ∀ i : Int, 0 ≤ i → i < size → get i ≠ some e) ∧
    (r ≠ -1 → 0 ≤ r ∧ r < size ∧ get r = some e ∧
      ∀ j : Int, 0 ≤ j → j < r → get j ≠ some e) := by
  rcases h with ⟨h1, h2⟩ | ⟨h1, h2, h3, h4⟩
  · exact ⟨⟨fun _ => h2, fun _ => h1⟩, fun hne => absurd h1 hne⟩
  · refine ⟨⟨fun hr => by omega, fun hall => absurd h3 (hall r h1 h2)⟩, fun _ => ⟨h1, h2, h3, h4⟩⟩

theorem nc_index_or [DecidableEq t] (c : nc_array t n) (e : t)
    (ha : 0 ≤ c.a.count) (hv : 0 ≤ c.v.count) :
    (c.index_of e = -1 ∧ ∀ i : Int, 0 ≤ i → i < c.size → c.get i ≠ some e) ∨
    (0 ≤ c.index_of e ∧ c.index_of e < c.size ∧ c.get (c.index_of e) = some e ∧
      ∀ j : Int, 0 ≤ j → j < c.index_of e → c.get j ≠ some e) := by
  have A := scan_index c.a.a e c.a.count
  have B := scan_index c.v.a e c.v.count
  simp only [nc_array.index_of, nc_array.size, nc_array.get, array.index_of, array.size,
    array.get, heap_array.index_of, heap_array.size, heap_array.get]
  rcases A with ⟨a1, a2⟩ | ⟨a1, a2, a3, a4⟩
  · have na : ¬ scan c.a.a e 0 c.a.count.toNat ≥ 0 := by omega
    rw [if_neg na]
    rcases B with ⟨b1, b2⟩ | ⟨b1, b2, b3, b4⟩
    · left
      have nb : scan c.v.a e 0 c.v.count.toNat < 0 := by omega
      rw [if_pos nb]
      refine ⟨b1, fun i hi0 hi1 => ?_⟩
      by_cases hi : i < c.a.count
      · rw [if_pos hi]; exact a2 i hi0 hi
      · rw [if_neg hi]; exact b2 _ (by omega) (by omega)
    · right
      have nb : ¬ scan c.v.a e 0 c.v.count.toNat < 0 := by omega
      rw [if_neg nb]
      refine ⟨by omega, by omega, ?_, fun j hj0 hj1 => ?_⟩
      · have : ¬ scan c.v.a e 0 c.v.count.toNat + c.a.count < c.a.count := by omega
        rw [if_neg this]
        simpa using b3
      · by_cases hj : j < c.a.count
        · rw [if_pos hj]; exact a2 j hj0 hj
        · rw [if_neg hj]; exact b4 _ (by omega) (by omega)
  · right
    have na : scan c.a.a e 0 c.a.count.toNat ≥ 0 := a1
    rw [if_pos na]
    refine ⟨a1, by omega, ?_, fun j hj0 hj1 => ?_⟩
    · rw [if_pos a2]; exact a3
    · have : j < c.a.count := by omega
      rw [if_pos this]; exact a4 j hj0 hj1

/-- C7 — index_of(e) on array, heap_array and nc_array returns the least index i
in [0, size()) with get(i) equal to e, and -1 exactly when no such index exists;
on nc_array a match in the inline segment is returned as it is and a match in
the heap segment is offset by the inline count. -/
theorem index_of_spec [DecidableEq t] {m : Nat} (s : array t m) (h : heap_array t)
    (c : nc_array t n)
    (e : t) (ha : 0 ≤ c.a.count) (hv : 0 ≤ c.v.count) :
    ((s.index_of e = -1 ↔ ∀ i : Int, 0 ≤ i → i < s.size → s.get i ≠ some e) ∧
      (s.index_of e ≠ -1 → 0 ≤ s.index_of e ∧ s.index_of e < s.size ∧
        s.get (s.index_of e) = some e ∧
        ∀ j : Int, 0 ≤ j → j < s.index_of e → s.get j ≠ some e)) ∧
    ((h.index_of e = -1 ↔ ∀ i : Int, 0 ≤ i → i < h.size → h.get i ≠ some e) ∧
      (h.index_of e ≠ -1 → 0 ≤ h.index_of e ∧ h.index_of e < h.size ∧
        h.get (h.index_of e) = some e ∧
        ∀ j : Int, 0 ≤ j → j < h.index_of e → h.get j ≠ some e)) ∧
    ((c.index_of e = -1 ↔ ∀ i : Int, 0 ≤ i → i < c.size → c.get i ≠ some e) ∧
      (c.index_of e ≠ -1 → 0 ≤ c.index_of e ∧ c.index_of e < c.size ∧
        c.get (c.index_of e) = some e ∧
        ∀ j : Int, 0 ≤ j → j < c.index_of e → c.get j ≠ some e)) ∧
    (c.a.index_of e ≥ 0 → c.index_of e = c.a.index_of e) ∧
    (c.a.index_of e < 0 → c.v.index_of e ≥ 0 →
      c.index_of e = c.v.index_of e + c.a.size) :=
  ⟨index_shape s.get s.size (s.index_of e) e (scan_index s.a e s.count),
    index_shape h.get h.size (h.index_of e) e (scan_index h.a e h.count),
    index_shape c.get c.size (c.index_of e) e (nc_index_or c e ha hv),
    fun h1 => by simp only [nc_array.index_of, h1, if_true],
    fun h1 h2 => by
      have n1 : ¬ c.a.index_of e ≥ 0 := by omega
      have n2 : ¬ c.v.index_of e < 0 := by omega
      simp only [nc_array.index_of, n1, n2, if_false]⟩


theorem load_store_ne (buf : List t) (i j : Int) (x : t) (h : i ≠ j) :
    load (store buf i x) j = load buf j := by
  unfold load store
  by_cases hj : 0 ≤ j
  · by_cases hi : 0 ≤ i
    · have : ¬ i.toNat = j.toNat := by omega
      simp [hi, hj, List.getElem?_set, this]
    · simp [hi]
  · simp [hj]

theorem load_store_eq (buf : List t) (i : Int) (x : t) (h0 : 0 ≤ i) (h1 : i < buf.length) :
    load (store buf i x) i = some x := by
  have : i.toNat < buf.length := by omega
  simp [load, store, h0, this]

theorem load_some (buf : List t) (i : Int) (h0 : 0 ≤ i) (h1 : i < buf.length) :
    ∃ x, load buf i = some x := by
  have h : i.toNat < buf.length := by omega
  exact ⟨buf[i.toNat], by rw [load_nat _ _ h0]; exact List.getElem?_eq_getElem h⟩

theorem realloc_length (junk : Nat → t) (buf : List t) (c : Int) (m : List t)
    (hc : (buf.length : Int) ≤ c) (h : realloc (some junk) buf c = some m) :
    (m.length : Int) = c := by
  simp only [realloc, Option.map_some', Option.some.injEq] at h
  subst h
  simp
  omega

theorem realloc_load (junk : Nat → t) (buf : List t) (c : Int) (m : List t)
    (hc : (buf.length : Int) ≤ c) (h : realloc (some junk) buf c = some m)
    (i : Int) (hi : i < buf.length) : load m i = load buf i := by
  simp only [realloc, Option.map_some', Option.some.injEq] at h
  subst h
  by_cases h0 : 0 ≤ i
  · rw [load_nat _ _ h0, load_nat _ _ h0, List.take_of_length_le (by omega),
      List.getElem?_append_left (by omega)]
  · simp [load, h0]

theorem array_remove_at_wf (s : array t n) (i : Int) (h : s.wf) (hc : 0 < s.count) :
    (s.remove_at i).wf := by
  obtain ⟨h0, h1, h2⟩ := h
  refine ⟨?_, ?_, ?_⟩
  · show 0 ≤ s.count - 1
    omega
  · show s.count - 1 ≤ n
    omega
  · show (if i < s.count - 1 then memcpy s.a i.toNat (i + 1).toNat (s.count - 1 - i).toNat
      else s.a).length = n
    rw [shift_length]; exact h2

theorem heap_remove_at_wf (v : heap_array t) (i : Int) (h : v.wf) (hc : 0 < v.count) :
    (v.remove_at i).wf := by
  obtain ⟨h0, h1, h2⟩ := h
  refine ⟨?_, ?_, ?_⟩
  · show 0 ≤ v.count - 1
    omega
  · show v.count - 1 ≤ v.capacity
    omega
  · show (((if i < v.count - 1 then memcpy v.a i.toNat (i + 1).toNat (v.count - 1 - i).toNat
      else v.a).length : Nat) : Int) = v.capacity
    rw [shift_length]; exact h2

theorem array_add_lt (s : array t n) (e : t) (h : s.count < n) :
    s.add e = (true, { a := store s.a s.count e, count := s.count + 1 }) := by
  have : ¬ s.count = n := by omega
  simp [array.add, this]

theorem array_add_wf (s : array t n) (e : t) (h : s.wf) : (s.add e).2.wf := by
  obtain ⟨h0, h1, h2⟩ := h
  by_cases hc : s.count = n
  · simp only [array.add, hc, if_true]
    exact ⟨by omega, by omega, h2⟩
  · rw [array_add_lt s e (by omega)]
    refine ⟨?_, ?_, ?_⟩
    · show 0 ≤ s.count + 1
      omega
    · show s.count + 1 ≤ n
      omega
    · show (store s.a s.count e).length = n
      rw [store_length]; exact h2

/-- The heap reserve with a successful allocation. -/
theorem heap_reserve_ok (v : heap_array t) (junk : Nat → t) (c : Int) (h : v.wf) :
    (v.reserve (some junk) c).1 = true ∧ (v.reserve (some junk) c).2.wf ∧
    (v.reserve (some junk) c).2.count = v.count ∧
    (v.reserve (some junk) c).2.capacity = max c v.capacity ∧
    (∀ i : Int, i < v.capacity →
      load (v.reserve (some junk) c).2.a i = load v.a i) := by
  obtain ⟨h0, h1, h2⟩ := h
  unfold heap_array.reserve
  by_cases hc : c > v.capacity
  · rw [if_pos hc]
    cases hm : realloc (some junk) v.a c with
    | none => simp [realloc] at hm
    | some m =>
      have hl := realloc_length junk v.a c m (by omega) hm
      refine ⟨rfl, ⟨h0, ?_, hl⟩, rfl, ?_, fun i hi => ?_⟩
      · show v.count ≤ c
        omega
      · show c = max c v.capacity
        omega
      · exact realloc_load junk v.a c m (by omega) hm i (by omega)
  · rw [if_neg hc]
    refine ⟨rfl, ⟨h0, h1, h2⟩, rfl, ?_, fun i _ => rfl⟩
    show v.capacity = max c v.capacity
    omega

theorem heap_reserve_any (v : heap_array t) (al : Option (Nat → t)) (c : Int) (h : v.wf) :
    (v.reserve al c).2.wf ∧ (v.reserve al c).2.count = v.count ∧
    ((v.reserve al c).1 = false → (v.reserve al c).2 = v) := by
  cases al with
  | none =>
    unfold heap_array.reserve
    by_cases hc : c > v.capacity
    · rw [if_pos hc]
      exact ⟨h, rfl, fun _ => rfl⟩
    · rw [if_neg hc]
      exact ⟨h, rfl, fun _ => rfl⟩
  | some junk =>
    have A := heap_reserve_ok v junk c h
    exact ⟨A.2.1, A.2.2.1, fun hf => by rw [A.1] at hf; cases hf⟩


theorem heap_add_lt (v : heap_array t) (al : Option (Nat → t)) (e : t)
    (h : v.count < v.capacity) :
    v.add al e = (true, { v with a := store v.a v.count e, count := v.count + 1 }) := by
  simp [heap_array.add, h]

theorem heap_add_grow_ok (v : heap_array t) (al : Option (Nat → t)) (e : t)
    (h : ¬ v.count < v.capacity) (w : heap_array t)
    (hr : v.reserve al (if v.capacity = 0 then 16 else v.capacity + v.capacity) = (true, w)) :
    v.add al e = (true, { w with a := store w.a w.count e, count := w.count + 1 }) := by
  simp [heap_array.add, h, hr]

theorem heap_add_grow_fail (v : heap_array t) (al : Option (Nat → t)) (e : t)
    (h : ¬ v.count < v.capacity) (w : heap_array t)
    (hr : v.reserve al (if v.capacity = 0 then 16 else v.capacity + v.capacity) = (false, w)) :
    v.add al e = (false, w) := by
  simp [heap_array.add, h, hr]

theorem heap_add_ok (v : heap_array t) (junk : Nat → t) (e : t) (h : v.wf) :
    (v.add (some junk) e).1 = true ∧ (v.add (some junk) e).2.wf ∧
    (v.add (some junk) e).2.count = v.count + 1 ∧
    (∀ i : Int, i < v.count → load (v.add (some junk) e).2.a i = load v.a i) ∧
    load (v.add (some junk) e).2.a v.count = some e := by
  obtain ⟨h0, h1, h2⟩ := h
  by_cases hc : v.count < v.capacity
  · rw [heap_add_lt v _ e hc]
    refine ⟨rfl, ⟨?_, ?_, ?_⟩, rfl, fun i hi => ?_, ?_⟩
    · show 0 ≤ v.count + 1
      omega
    · show v.count + 1 ≤ v.capacity
      omega
    · show ((store v.a v.count e).length : Int) = v.capacity
      rw [store_length]; exact h2
    · exact load_store_ne _ _ _ _ (by omega)
    · exact load_store_eq _ _ _ h0 (by omega)
  · obtain ⟨r1, ⟨_, r2, r3⟩, r4, r5, r6⟩ := heap_reserve_ok v junk
      (if v.capacity = 0 then 16 else v.capacity + v.capacity) ⟨h0, h1, h2⟩
    generalize hw : v.reserve (some junk)
      (if v.capacity = 0 then 16 else v.capacity + v.capacity) = w at r1 r2 r3 r4 r5 r6
    obtain ⟨b, w⟩ := w
    simp only at r1 r2 r3 r4 r5 r6
    subst r1
    rw [heap_add_grow_ok v _ e hc w hw]
    have hcap : v.count < w.capacity := by
      rw [r5]; split <;> omega
    refine ⟨rfl, ⟨?_, ?_, ?_⟩, ?_, fun i hi => ?_, ?_⟩
    · show 0 ≤ w.count + 1
      omega
    · show w.count + 1 ≤ w.capacity
      omega
    · show ((store w.a w.count e).length : Int) = w.capacity
      rw [store_length]; exact r3
    · show w.count + 1 = v.count + 1
      omega
    · show load (store w.a w.count e) i = _
      rw [load_store_ne _ _ _ _ (by omega)]
      exact r6 i (by omega)
    · show load (store w.a w.count e) v.count = _
      rw [r4]
      exact load_store_eq _ _ _ h0 (by omega)

theorem heap_add_any (v : heap_array t) (al : Option (Nat → t)) (e : t) (h : v.wf) :
    (v.add al e).2.wf ∧
    (v.add al e).2.count = v.count + (if (v.add al e).1 then 1 else 0) ∧
    ((v.add al e).1 = false → (v.add al e).2 = v) := by
  cases al with
  | some junk =>
    obtain ⟨a1, a2, a3, _, _⟩ := heap_add_ok v junk e h
    exact ⟨a2, by rw [a3, a1]; rfl, fun hf => by rw [a1] at hf; cases hf⟩
  | none =>
    obtain ⟨h0, h1, h2⟩ := h
    by_cases hc : v.count < v.capacity
    · rw [heap_add_lt v _ e hc]
      refine ⟨⟨?_, ?_, ?_⟩, rfl, fun hf => by cases hf⟩
      · show 0 ≤ v.count + 1
        omega
      · show v.count + 1 ≤ v.capacity
        omega
      · show ((store v.a v.count e).length : Int) = v.capacity
        rw [store_length]; exact h2
    · have hr : v.reserve none (if v.capacity = 0 then 16 else v.capacity + v.capacity)
          = (false, v) := by
        unfold heap_array.reserve
        have : (if v.capacity = 0 then 16 else v.capacity + v.capacity) > v.capacity := by
          split <;> omega
        rw [if_pos this]
        rfl
      rw [heap_add_grow_fail v _ e hc v hr]
      exact ⟨⟨h0, h1, h2⟩, by simp, fun _ => rfl⟩

theorem array_remove_at_get (s : array t n) (i : Int) (h : s.wf) (hi : 0 ≤ i ∧ i < s.count) :
    (s.remove_at i).count = s.count - 1 ∧
    (s.remove_at i).a.length = s.a.length ∧
    (∀ j : Int, 0 ≤ j → j < i → load (s.remove_at i).a j = load s.a j) ∧
    (∀ j : Int, i < j → j < s.count → load (s.remove_at i).a (j - 1) = load s.a j) := by
  obtain ⟨_, h1, h2⟩ := h
  have A := shift_get s.a s.count i hi.1 hi.2 (by omega)
  exact ⟨rfl, shift_length _ _ _, A.1, A.2⟩

theorem heap_remove_at_get (v : heap_array t) (i : Int) (h : v.wf)
    (hi : 0 ≤ i ∧ i < v.count) :
    (v.remove_at i).count = v.count - 1 ∧
    (∀ j : Int, 0 ≤ j → j < i → load (v.remove_at i).a j = load v.a j) ∧
    (∀ j : Int, i < j → j < v.count → load (v.remove_at i).a (j - 1) = load v.a j) := by
  obtain ⟨_, h1, h2⟩ := h
  have A := shift_get v.a v.count i hi.1 hi.2 (by omega)
  exact ⟨rfl, A.1, A.2⟩

theorem nc_get_lt (s : nc_array t n) (j : Int) (h : j < s.a.count) :
    s.get j = load s.a.a j := by
  simp [nc_array.get, array.size, array.get, h]

theorem nc_get_ge (s : nc_array t n) (j : Int) (h : ¬ j < s.a.count) :
    s.get j = load s.v.a (j - s.a.count) := by
  simp [nc_array.get, array.size, heap_array.get, h]

theorem nc_remove_at_inline (s : nc_array t n) (i : Int) (h : s.v.count = 0) :
    s.remove_at i = { a := s.a.remove_at i, v := s.v } := by
  simp [nc_array.remove_at, heap_array.size, h]

theorem nc_remove_at_migrate (s : nc_array t n) (i : Int) (x : t) (h : ¬ s.v.count = 0)
    (hi : i < s.a.count) (hx : load s.v.a 0 = some x) :
    s.remove_at i = { a := ((s.a.remove_at i).add x).2, v := s.v.remove_at 0 } := by
  simp [nc_array.remove_at, heap_array.size, array.size, heap_array.get, h, hi, hx]

theorem nc_remove_at_heap (s : nc_array t n) (i : Int) (h : ¬ s.v.count = 0)
    (hi : ¬ i < s.a.count) :
    s.remove_at i = { a := s.a, v := s.v.remove_at (i - s.a.count) } := by
  simp [nc_array.remove_at, heap_array.size, array.size, h, hi]


theorem nc_remove_at_wf (s : nc_array t n) (i : Int) (h : s.wf)
    (hi : 0 ≤ i ∧ i < s.size) : (s.remove_at i).wf := by
  obtain ⟨ha, hv⟩ := h
  have hsz : s.size = s.a.count + s.v.count := rfl
  rw [hsz] at hi
  by_cases hz : s.v.count = 0
  · rw [nc_remove_at_inline s i hz]
    exact ⟨array_remove_at_wf s.a i ha (by omega), hv⟩
  · have hvpos : 0 < s.v.count := by have := hv.1; omega
    by_cases hlt : i < s.a.count
    · obtain ⟨x, hx⟩ := load_some s.v.a 0 (le_refl _) (by have := hv.2.1; have := hv.2.2; omega)
      rw [nc_remove_at_migrate s i x hz hlt hx]
      exact ⟨array_add_wf _ x (array_remove_at_wf s.a i ha (by omega)),
        heap_remove_at_wf s.v 0 hv hvpos⟩
    · rw [nc_remove_at_heap s i hz hlt]
      exact ⟨ha, heap_remove_at_wf s.v _ hv hvpos⟩

/-- The effect of `nc_array::remove_at` on the logical elements. -/
theorem nc_remove_at_erases (s : nc_array t n) (i : Int) (h : s.wf)
    (hi : 0 ≤ i ∧ i < s.size) :
    (s.remove_at i).size = s.size - 1 ∧
    (∀ j : Int, 0 ≤ j → j < i → (s.remove_at i).get j = s.get j) ∧
    (∀ j : Int, i < j → j < s.size → (s.remove_at i).get (j - 1) = s.get j) := by
  obtain ⟨ha, hv⟩ := h
  obtain ⟨a0, a1, a2⟩ := id ha
  obtain ⟨v0, v1, v2⟩ := id hv
  have hsz : s.size = s.a.count + s.v.count := rfl
  rw [hsz] at hi
  rw [hsz]
  by_cases hz : s.v.count = 0
  · obtain ⟨A0, _, A1, A2⟩ := array_remove_at_get s.a i ha ⟨hi.1, by omega⟩
    rw [nc_remove_at_inline s i hz]
    refine ⟨?_, fun j hj0 hj1 => ?_, fun j hj0 hj1 => ?_⟩
    · show (s.a.remove_at i).count + s.v.count = _
      omega
    · rw [nc_get_lt _ j (by show j < (s.a.remove_at i).count; omega), nc_get_lt s j (by omega)]
      exact A1 j hj0 hj1
    · rw [nc_get_lt _ (j - 1) (by show j - 1 < (s.a.remove_at i).count; omega),
        nc_get_lt s j (by omega)]
      exact A2 j hj0 (by omega)
  · by_cases hlt : i < s.a.count
    · obtain ⟨A0, AL, A1, A2⟩ := array_remove_at_get s.a i ha ⟨hi.1, hlt⟩
      obtain ⟨B0, _, B2⟩ := heap_remove_at_get s.v 0 hv ⟨le_refl _, by omega⟩
      obtain ⟨x, hx⟩ := load_some s.v.a 0 (le_refl _) (by omega)
      rw [nc_remove_at_migrate s i x hz hlt hx,
        array_add_lt _ x (by show (s.a.remove_at i).count < n; omega)]
      refine ⟨?_, fun j hj0 hj1 => ?_, fun j hj0 hj1 => ?_⟩
      · show (s.a.remove_at i).count + 1 + (s.v.remove_at 0).count = _
        omega
      · rw [nc_get_lt _ j (by show j < (s.a.remove_at i).count + 1; omega),
          nc_get_lt s j (by omega)]
        show load (store (s.a.remove_at i).a (s.a.remove_at i).count x) j = _
        rw [load_store_ne _ _ _ _ (by omega)]
        exact A1 j hj0 hj1
      · by_cases c1 : j < s.a.count
        · rw [nc_get_lt _ (j - 1) (by show j - 1 < (s.a.remove_at i).count + 1; omega),
            nc_get_lt s j c1]
          show load (store (s.a.remove_at i).a (s.a.remove_at i).count x) (j - 1) = _
          rw [load_store_ne _ _ _ _ (by omega)]
          exact A2 j hj0 c1
        · by_cases c2 : j = s.a.count
          · rw [nc_get_lt _ (j - 1) (by show j - 1 < (s.a.remove_at i).count + 1; omega),
              nc_get_ge s j c1]
            show load (store (s.a.remove_at i).a (s.a.remove_at i).count x) (j - 1) = _
            have e0 : j - s.a.count = 0 := by omega
            have e1 : j - 1 = (s.a.remove_at i).count := by omega
            rw [e0, hx, e1]
            exact load_store_eq _ _ _ (by omega) (by omega)
          · rw [nc_get_ge _ (j - 1) (by show ¬ j - 1 < (s.a.remove_at i).count + 1; omega),
              nc_get_ge s j c1]
            show load (s.v.remove_at 0).a (j - 1 - ((s.a.remove_at i).count + 1)) = _
            have e1 : j - 1 - ((s.a.remove_at i).count + 1) = (j - s.a.count) - 1 := by omega
            rw [e1]
            exact B2 (j - s.a.count) (by omega) (by omega)
    · obtain ⟨B0, B1, B2⟩ := heap_remove_at_get s.v (i - s.a.count) hv ⟨by omega, by omega⟩
      rw [nc_remove_at_heap s i hz hlt]
      refine ⟨?_, fun j hj0 hj1 => ?_, fun j hj0 hj1 => ?_⟩
      · show s.a.count + (s.v.remove_at (i - s.a.count)).count = _
        omega
      · by_cases c1 : j < s.a.count
        · rw [nc_get_lt s j c1, nc_get_lt _ j (by show j < s.a.count; exact c1)]
        · rw [nc_get_ge s j c1, nc_get_ge _ j (by show ¬ j < s.a.count; exact c1)]
          exact B1 (j - s.a.count) (by omega) (by omega)
      · rw [nc_get_ge _ (j - 1) (by show ¬ j - 1 < s.a.count; omega),
          nc_get_ge s j (by omega)]
        show load (s.v.remove_at (i - s.a.count)).a (j - 1 - s.a.count) = _
        have e1 : j - 1 - s.a.count = (j - s.a.count) - 1 := by omega
        rw [e1]
        exact B2 (j - s.a.count) (by omega) (by omega)


/-- C3 — remove_at(i) on nc_array with 0 <= i < size() erases the i-th logical
element: elements below i keep their index, the element formerly at j > i is
now at j - 1 (also across the inline/heap boundary), and size() drops by one. -/
theorem nc_remove_at_spec (s : nc_array t n) (i : Int) (h : s.wf)
    (hi : 0 ≤ i ∧ i < s.size) :
    (s.remove_at i).size = s.size - 1 ∧
    (∀ j : Int, 0 ≤ j → j < i → (s.remove_at i).get j = s.get j) ∧
    (∀ j : Int, i < j → j < s.size → (s.remove_at i).get (j - 1) = s.get j) :=
  nc_remove_at_erases s i h hi

theorem nc_add_heap (s : nc_array t n) (al : Option (Nat → t)) (e : t)
    (h : s.a.count > 0 ∨ s.a.count + s.v.count ≥ n) :
    s.add al e = ((s.v.add al e).1, { a := s.a, v := (s.v.add al e).2 }) := by
  simp only [nc_array.add, nc_array.size, array.size, heap_array.size, h, if_true]

theorem nc_add_inline (s : nc_array t n) (al : Option (Nat → t)) (e : t)
    (h : ¬ (s.a.count > 0 ∨ s.a.count + s.v.count ≥ n)) :
    s.add al e = ((s.a.add e).1, { a := (s.a.add e).2, v := s.v }) := by
  simp only [nc_array.add, nc_array.size, array.size, heap_array.size, h, if_false]

theorem nc_add_any (s : nc_array t n) (al : Option (Nat → t)) (e : t) (h : s.wf) :
    (s.add al e).2.wf ∧ (s.add al e).2.size = s.size + (if (s.add al e).1 then 1 else 0) := by
  obtain ⟨ha, hv⟩ := h
  have hsz : s.size = s.a.count + s.v.count := rfl
  by_cases hc : s.a.count > 0 ∨ s.a.count + s.v.count ≥ n
  · obtain ⟨w, c, _⟩ := heap_add_any s.v al e hv
    rw [nc_add_heap s al e hc, hsz]
    refine ⟨⟨ha, w⟩, ?_⟩
    show s.a.count + (s.v.add al e).2.count = _
    rw [c]
    show _ = s.a.count + s.v.count + (if (s.v.add al e).1 = true then 1 else 0)
    omega
  · have hlt : s.a.count < n := by have := hv.1; omega
    rw [nc_add_inline s al e hc, array_add_lt s.a e hlt, hsz]
    refine ⟨⟨?_, hv⟩, ?_⟩
    · have := array_add_wf s.a e ha
      rw [array_add_lt s.a e hlt] at this
      exact this
    · show s.a.count + 1 + s.v.count = s.a.count + s.v.count + 1
      omega

theorem nc_remove_found [DecidableEq t] (s : nc_array t n) (e : t) (h : 0 ≤ s.index_of e) :
    s.remove e = (true, s.remove_at (s.index_of e)) := by
  simp [nc_array.remove, h]

theorem nc_remove_missing [DecidableEq t] (s : nc_array t n) (e : t)
    (h : s.index_of e = -1) : s.remove e = (false, s) := by
  simp [nc_array.remove, h]

theorem nc_remove_any [DecidableEq t] (s : nc_array t n) (e : t) (h : s.wf) :
    (s.remove e).2.wf ∧ (s.remove e).2.size = s.size - (if (s.remove e).1 then 1 else 0) := by
  rcases nc_index_or s e h.1.1 h.2.1 with ⟨h1, _⟩ | ⟨h1, h2, _, _⟩
  · rw [nc_remove_missing s e h1]
    exact ⟨h, by simp⟩
  · rw [nc_remove_found s e h1]
    exact ⟨nc_remove_at_wf s _ h ⟨h1, h2⟩, by
      rw [(nc_remove_at_erases s _ h ⟨h1, h2⟩).1]; rfl⟩

theorem nc_run_size [DecidableEq t] (ops : List (op t)) : ∀ s : nc_array t n,
    s.wf → s.valid ops = true → (s.run ops).2.2.size = s.size + (s.run ops).1 - (s.run ops).2.1 := by
  induction ops with
  | nil => intro s _ _; simp [nc_array.run]
  | cons o r ih =>
    intro s h hv
    cases o with
    | add al e =>
      simp only [nc_array.valid] at hv
      obtain ⟨w, c⟩ := nc_add_any s al e h
      have := ih (s.add al e).2 w hv
      simp only [nc_array.run]
      rw [this, c]
      omega
    | remove_at i =>
      simp only [nc_array.valid, Bool.and_eq_true, decide_eq_true_eq] at hv
      have := ih (s.remove_at i) (nc_remove_at_wf s i h hv.1) hv.2
      simp only [nc_array.run]
      rw [this, (nc_remove_at_erases s i h hv.1).1]
      omega
    | remove e =>
      simp only [nc_array.valid] at hv
      obtain ⟨w, c⟩ := nc_remove_any s e h
      have := ih (s.remove e).2 w hv
      simp only [nc_array.run]
      rw [this, c]
      omega

/-- C8 — remove(e) on nc_array returns true iff e occurs among the logical
elements; when it returns true the first occurrence of e (index k) is erased
and size() drops by one; when it returns false the state is unchanged.
Consequently after a sequence of add / remove_at (valid index) / remove calls
size() is the initial size plus the successful adds minus the removals. -/
theorem nc_remove_spec [DecidableEq t] (s : nc_array t n) (e : t) (ops : List (op t))
    (h : s.wf) (hv : s.valid ops = true) :
    ((s.remove e).1 = true ↔ ∃ i : Int, 0 ≤ i ∧ i < s.size ∧ s.get i = some e) ∧
    ((s.remove e).1 = true →
      ∃ k : Int, 0 ≤ k ∧ k < s.size ∧ s.get k = some e ∧
        (∀ j : Int, 0 ≤ j → j < k → s.get j ≠ some e) ∧
        (s.remove e).2.size = s.size - 1 ∧
        (∀ j : Int, 0 ≤ j → j < k → (s.remove e).2.get j = s.get j) ∧
        (∀ j : Int, k < j → j < s.size → (s.remove e).2.get (j - 1) = s.get j)) ∧
    ((s.remove e).1 = false → (s.remove e).2 = s) ∧
    (s.run ops).2.2.size = s.size + (s.run ops).1 - (s.run ops).2.1 := by
  refine ⟨?_, ?_, ?_, nc_run_size ops s h hv⟩
  · rcases nc_index_or s e h.1.1 h.2.1 with ⟨h1, h2⟩ | ⟨h1, h2, h3, _⟩
    · rw [nc_remove_missing s e h1]
      exact ⟨fun hf => Bool.noConfusion hf, fun ⟨i, i0, i1, i2⟩ => absurd i2 (h2 i i0 i1)⟩
    · rw [nc_remove_found s e h1]
      exact ⟨fun _ => ⟨_, h1, h2, h3⟩, fun _ => rfl⟩
  · rcases nc_index_or s e h.1.1 h.2.1 with ⟨h1, _⟩ | ⟨h1, h2, h3, h4⟩
    · rw [nc_remove_missing s e h1]
      intro hf; cases hf
    · rw [nc_remove_found s e h1]
      intro _
      obtain ⟨r1, r2, r3⟩ := nc_remove_at_erases s _ h ⟨h1, h2⟩
      exact ⟨s.index_of e, h1, h2, h3, h4, r1, r2, r3⟩
  · rcases nc_index_or s e h.1.1 h.2.1 with ⟨h1, _⟩ | ⟨h1, _, _, _⟩
    · rw [nc_remove_missing s e h1]
      intro _; rfl
    · rw [nc_remove_found s e h1]
      intro hf; cases hf


theorem nc_add_step (s : nc_array t n) (junk : Nat → t) (e : t) (hn : 1 ≤ n) (h : s.wf)
    (hI : s.a.count = 0 → s.v.count = 0) :
    (s.add (some junk) e).1 = true ∧ (s.add (some junk) e).2.wf ∧
    ((s.add (some junk) e).2.a.count = 0 → (s.add (some junk) e).2.v.count = 0) ∧
    (s.add (some junk) e).2.size = s.size + 1 ∧
    (∀ i : Int, 0 ≤ i → i < s.size → (s.add (some junk) e).2.get i = s.get i) ∧
    (s.add (some junk) e).2.get s.size = some e := by
  obtain ⟨ha, hv⟩ := h
  obtain ⟨a0, a1, a2⟩ := id ha
  obtain ⟨v0, v1, v2⟩ := id hv
  have hsz : s.size = s.a.count + s.v.count := rfl
  rw [hsz]
  by_cases hc : s.a.count > 0 ∨ s.a.count + s.v.count ≥ n
  · have hpos : s.a.count > 0 := by
      rcases hc with hc | hc
      · exact hc
      · by_contra hne
        have := hI (by omega)
        omega
    obtain ⟨r1, r2, r3, r4, r5⟩ := heap_add_ok s.v junk e hv
    rw [nc_add_heap s _ e hc]
    dsimp only
    refine ⟨r1, ⟨ha, r2⟩, fun hz => ?_, ?_, fun i hi0 hi1 => ?_, ?_⟩
    · have hz1 : s.a.count = 0 := hz
      omega
    · show s.a.count + (s.v.add (some junk) e).2.count = _
      omega
    · by_cases c1 : i < s.a.count
      · rw [nc_get_lt s i c1, nc_get_lt _ i (by show i < s.a.count; exact c1)]
      · rw [nc_get_ge s i c1, nc_get_ge _ i (by show ¬ i < s.a.count; exact c1)]
        dsimp only
        exact r4 _ (by omega)
    · rw [nc_get_ge _ _ (by show ¬ s.a.count + s.v.count < s.a.count; omega)]
      show load (s.v.add (some junk) e).2.a (s.a.count + s.v.count - s.a.count) = _
      have e1 : s.a.count + s.v.count - s.a.count = s.v.count := by omega
      rw [e1]
      exact r5
  · have hz : s.a.count = 0 := by omega
    have hvz : s.v.count = 0 := hI hz
    rw [nc_add_inline s _ e hc, array_add_lt s.a e (by omega)]
    dsimp only
    refine ⟨rfl, ⟨⟨?_, ?_, ?_⟩, hv⟩, fun h1 => ?_, ?_, fun i hi0 hi1 => ?_, ?_⟩
    · show 0 ≤ s.a.count + 1
      omega
    · show s.a.count + 1 ≤ n
      omega
    · show (store s.a.a s.a.count e).length = n
      rw [store_length]; exact a2
    · have h2 : s.a.count + 1 = 0 := h1
      omega
    · show s.a.count + 1 + s.v.count = _
      omega
    · omega
    · rw [nc_get_lt _ _ (by show s.a.count + s.v.count < s.a.count + 1; omega)]
      show load (store s.a.a s.a.count e) (s.a.count + s.v.count) = _
      have e1 : s.a.count + s.v.count = s.a.count := by omega
      rw [e1]
      exact load_store_eq _ _ _ a0 (by omega)

theorem nc_add_all_gen (hn : 1 ≤ n) (xs : List ((Nat → t) × t)) : ∀ s : nc_array t n,
    s.wf → (s.a.count = 0 → s.v.count = 0) →
    (∀ b ∈ (s.add_all xs).1, b = true) ∧ (s.add_all xs).1.length = xs.length ∧
    (s.add_all xs).2.size = s.size + xs.length ∧
    (∀ i : Int, 0 ≤ i → i < s.size → (s.add_all xs).2.get i = s.get i) ∧
    (∀ k : Nat, k < xs.length →
      (s.add_all xs).2.get (s.size + k) = xs[k]?.map Prod.snd) := by
  induction xs with
  | nil =>
    intro s _ _
    simp [nc_array.add_all]
  | cons p xs ih =>
    intro s h hI
    obtain ⟨junk, x⟩ := p
    obtain ⟨r1, r2, r3, r4, r5, r6⟩ := nc_add_step s junk x hn h hI
    obtain ⟨q1, q2, q3, q4, q5⟩ := ih (s.add (some junk) x).2 r2 r3
    have hpos : 0 ≤ s.size := by
      have := h.1.1; have := h.2.1
      show 0 ≤ s.a.count + s.v.count
      omega
    simp only [nc_array.add_all, List.length_cons, List.mem_cons]
    refine ⟨fun b hb => ?_, by rw [q2], ?_, fun i hi0 hi1 => ?_, fun k hk => ?_⟩
    · rcases hb with hb | hb
      · rw [hb]; exact r1
      · exact q1 b hb
    · rw [q3, r4]; push_cast; omega
    · rw [q4 i hi0 (by omega)]
      exact r5 i hi0 hi1
    · cases k with
      | zero =>
        simp only [Nat.cast_zero, add_zero, List.getElem?_cons_zero, Option.map_some']
        rw [q4 _ hpos (by omega)]
        exact r6
      | succ k =>
        have e1 : s.size + ((k + 1 : Nat) : Int) = (s.add (some junk) x).2.size + (k : Int) := by
          rw [r4]; push_cast; omega
        rw [e1, q5 k (by omega)]
        simp

/-- C2 — starting from an empty nc_array with n >= 1, adding the elements of xs
in order with every allocation succeeding: every add returns true, size() is the
length of xs, and get(i) returns the i-th element of xs for every i below it. -/
theorem nc_add_all_spec (mem : List t) (xs : List ((Nat → t) × t)) (hn : 1 ≤ n)
    (hm : mem.length = n) :
    (∀ b ∈ ((nc_array.new mem : nc_array t n).add_all xs).1, b = true) ∧
    ((nc_array.new mem : nc_array t n).add_all xs).1.length = xs.length ∧
    ((nc_array.new mem : nc_array t n).add_all xs).2.size = xs.length ∧
    (∀ k : Nat, k < xs.length →
      ((nc_array.new mem : nc_array t n).add_all xs).2.get k = xs[k]?.map Prod.snd) := by
  have w : (nc_array.new mem : nc_array t n).wf :=
    ⟨⟨le_refl _, by show (0 : Int) ≤ n; omega, hm⟩, ⟨le_refl _, le_refl _, rfl⟩⟩
  obtain ⟨q1, q2, q3, _, q5⟩ := nc_add_all_gen hn xs (nc_array.new mem) w (fun _ => rfl)
  have z : (nc_array.new mem : nc_array t n).size = 0 := rfl
  rw [z] at q3 q5
  refine ⟨q1, q2, by rw [q3]; simp, fun k hk => ?_⟩
  have := q5 k hk
  simpa using this


theorem write_length (xs : List t) : ∀ (buf : List t) (d : Nat),
    (write buf d xs).length = buf.length := by
  induction xs with
  | nil => intro buf d; rfl
  | cons x xs ih =>
    intro buf d
    unfold write
    rw [ih]
    simp

theorem heap_resize_fits (v : heap_array t) (al : Option (Nat → t)) (k : Int)
    (h : k ≤ v.capacity) : v.resize al k = (true, { v with count := k }) := by
  have : ¬ k > v.capacity := by omega
  simp [heap_array.resize, heap_array.reserve, this]

theorem nc_cast_inline (s : nc_array t n) (al1 al2 : Option (Nat → t)) (h : s.v.count = 0) :
    s.cast al1 al2 = (s.a.a, s) := by
  simp [nc_array.cast, heap_array.size, h]

theorem nc_cast_heap (s : nc_array t n) (al1 al2 : Option (Nat → t)) (h : ¬ s.v.count = 0)
    (ha : ¬ s.a.count > 0) : s.cast al1 al2 = (s.v.a, s) := by
  simp only [nc_array.cast, heap_array.size, array.size, h, ha, if_false]

theorem nc_cast_migrate (s : nc_array t n) (al1 al2 : Option (Nat → t))
    (h : ¬ s.v.count = 0) (ha : s.a.count > 0) :
    s.cast al1 al2 =
      (((({ (s.v.reserve al1 s.size).2 with
            a := memcpy_from
              (if (s.v.reserve al1 s.size).2.count - s.a.count > 0
                then memmove (s.v.reserve al1 s.size).2.a s.a.count.toNat 0
                  ((s.v.reserve al1 s.size).2.count - s.a.count).toNat
                else (s.v.reserve al1 s.size).2.a)
              0 s.a.a 0 s.a.count.toNat } : heap_array t).resize al2 s.size).2).a,
        { a := s.a.clear,
          v := (({ (s.v.reserve al1 s.size).2 with
            a := memcpy_from
              (if (s.v.reserve al1 s.size).2.count - s.a.count > 0
                then memmove (s.v.reserve al1 s.size).2.a s.a.count.toNat 0
                  ((s.v.reserve al1 s.size).2.count - s.a.count).toNat
                else (s.v.reserve al1 s.size).2.a)
              0 s.a.a 0 s.a.count.toNat } : heap_array t).resize al2 s.size).2 }) := by
  simp only [nc_array.cast, heap_array.size, array.size, h, ha, if_false, if_true]

theorem nc_cast_ok (c : nc_array t n) (junk : Nat → t) (al2 : Option (Nat → t)) (hc : c.wf) :
    (c.cast (some junk) al2).2.size = c.size ∧
    ((c.cast (some junk) al2).2.a.count = 0 ∨ (c.cast (some junk) al2).2.v.count = 0) ∧
    (∀ i : Int, 0 ≤ i → i < c.size →
      ∃ x, load (c.cast (some junk) al2).1 i = some x ∧
        (c.cast (some junk) al2).2.get i = some x) := by
  obtain ⟨ha, hv⟩ := hc
  obtain ⟨a0, a1, a2⟩ := id ha
  obtain ⟨v0, v1, v2⟩ := id hv
  have hsz : c.size = c.a.count + c.v.count := rfl
  by_cases hz : c.v.count = 0
  · rw [nc_cast_inline c _ _ hz]
    refine ⟨rfl, Or.inr hz, fun i hi0 hi1 => ?_⟩
    dsimp only
    rw [nc_get_lt c i (by omega)]
    obtain ⟨x, hx⟩ := load_some c.a.a i hi0 (by omega)
    exact ⟨x, hx, hx⟩
  · by_cases hp : c.a.count > 0
    · obtain ⟨_, ⟨_, r2, r3⟩, r4, r5, _⟩ := heap_reserve_ok c.v junk c.size hv
      rw [nc_cast_migrate c _ _ hz hp]
      generalize (c.v.reserve (some junk) c.size).2 = w at r2 r3 r4 r5
      rw [heap_resize_fits _ al2 c.size (by show c.size ≤ w.capacity; omega)]
      dsimp only
      refine ⟨?_, Or.inl rfl, fun i hi0 hi1 => ?_⟩
      · show (0 : Int) + c.size = c.size
        omega
      · rw [nc_get_ge _ i (by show ¬ i < 0; omega)]
        dsimp only [array.clear]
        have e1 : i - 0 = i := by omega
        rw [e1]
        obtain ⟨x, hx⟩ := load_some (memcpy_from
            (if w.count - c.a.count > 0
              then memmove w.a c.a.count.toNat 0 (w.count - c.a.count).toNat
              else w.a) 0 c.a.a 0 c.a.count.toNat) i hi0 (by
          unfold memcpy_from
          rw [write_length]
          split
          · unfold memmove
            rw [write_length]; omega
          · omega)
        exact ⟨x, hx, hx⟩
    · rw [nc_cast_heap c _ _ hz hp]
      refine ⟨rfl, Or.inl (by show c.a.count = 0; omega), fun i hi0 hi1 => ?_⟩
      dsimp only
      rw [nc_get_ge c i (by omega)]
      have e1 : i - c.a.count = i := by omega
      rw [e1]
      obtain ⟨x, hx⟩ := load_some c.v.a i hi0 (by omega)
      exact ⟨x, hx, hx⟩

/-- C5 — with the allocation succeeding, cast() on an nc_array with inline count
at most n leaves size() unchanged, leaves one of the two segments empty, and the
returned pointer p satisfies p[i] == get(i) for every 0 <= i < size(); the same
agreement holds for cast() on array and on heap_array. -/
theorem cast_spec {m : Nat} (s : array t m) (h : heap_array t) (c : nc_array t n)
    (junk : Nat → t)
    (al2 : Option (Nat → t)) (hs : s.wf) (hh : h.wf) (hc : c.wf) :
    ((c.cast (some junk) al2).2.size = c.size ∧
      ((c.cast (some junk) al2).2.a.count = 0 ∨ (c.cast (some junk) al2).2.v.count = 0) ∧
      (∀ i : Int, 0 ≤ i → i < c.size →
        ∃ x, load (c.cast (some junk) al2).1 i = some x ∧
          (c.cast (some junk) al2).2.get i = some x)) ∧
    (∀ i : Int, 0 ≤ i → i < s.size → ∃ x, load s.cast i = some x ∧ s.get i = some x) ∧
    (∀ i : Int, 0 ≤ i → i < h.size → ∃ x, load h.cast i = some x ∧ h.get i = some x) := by
  refine ⟨nc_cast_ok c junk al2 hc, fun i hi0 hi1 => ?_, fun i hi0 hi1 => ?_⟩
  · obtain ⟨_, s1, s2⟩ := hs
    have hi2 : i < s.count := hi1
    obtain ⟨x, hx⟩ := load_some s.a i hi0 (by omega)
    exact ⟨x, hx, hx⟩
  · obtain ⟨_, h1, h2⟩ := hh
    have hi2 : i < h.count := hi1
    obtain ⟨x, hx⟩ := load_some h.a i hi0 (by omega)
    exact ⟨x, hx, hx⟩


/-! ## Instances on the scenarios -/

theorem nc_add_all_spec_witness :
    (1 ≤ 2 ∧ ([7, 7] : List Int).length = 2) ∧
    ((nc_array.new [7, 7] : nc_array Int 2).add_all three_adds).2.size =
      (three_adds.length : Nat) ∧
    (∀ k : Nat, k < three_adds.length →
      ((nc_array.new [7, 7] : nc_array Int 2).add_all three_adds).2.get k =
        three_adds[k]?.map Prod.snd) :=
  ⟨⟨by decide, rfl⟩, (nc_add_all_spec [7, 7] three_adds (by decide) rfl).2.2⟩

theorem nc_remove_at_spec_witness :
    scenario_A5.wf ∧ (0 ≤ (0 : Int) ∧ (0 : Int) < scenario_A5.size) ∧
    (scenario_A5.remove_at 0).size = scenario_A5.size - 1 ∧
    (∀ j : Int, 0 ≤ j → j < 0 → (scenario_A5.remove_at 0).get j = scenario_A5.get j) ∧
    (∀ j : Int, 0 < j → j < scenario_A5.size →
      (scenario_A5.remove_at 0).get (j - 1) = scenario_A5.get j) :=
  ⟨by decide, by decide, nc_remove_at_spec scenario_A5 0 (by decide) (by decide)⟩

theorem cast_spec_witness :
    (scenario_C.wf ∧ heap_566.wf ∧ scenario_D.wf) ∧
    (scenario_D.cast (some zeroed) none).2.size = scenario_D.size ∧
    ((scenario_D.cast (some zeroed) none).2.a.count = 0 ∨
      (scenario_D.cast (some zeroed) none).2.v.count = 0) ∧
    (∀ i : Int, 0 ≤ i → i < scenario_D.size →
      ∃ x, load (scenario_D.cast (some zeroed) none).1 i = some x ∧
        (scenario_D.cast (some zeroed) none).2.get i = some x) :=
  ⟨⟨by decide, by decide, by decide⟩,
    (cast_spec scenario_C heap_566 scenario_D zeroed none
      (by decide) (by decide) (by decide)).1⟩

theorem index_of_spec_witness :
    (0 ≤ scenario_A5.a.count ∧ 0 ≤ scenario_A5.v.count) ∧
    ((scenario_A5.index_of 3 = -1 ↔
        ∀ i : Int, 0 ≤ i → i < scenario_A5.size → scenario_A5.get i ≠ some 3) ∧
      (scenario_A5.index_of 3 ≠ -1 →
        0 ≤ scenario_A5.index_of 3 ∧ scenario_A5.index_of 3 < scenario_A5.size ∧
        scenario_A5.get (scenario_A5.index_of 3) = some 3 ∧
        ∀ j : Int, 0 ≤ j → j < scenario_A5.index_of 3 → scenario_A5.get j ≠ some 3)) ∧
    (scenario_A5.a.index_of 3 ≥ 0 → scenario_A5.index_of 3 = scenario_A5.a.index_of 3) ∧
    (scenario_A5.a.index_of 3 < 0 → scenario_A5.v.index_of 3 ≥ 0 →
      scenario_A5.index_of 3 = scenario_A5.v.index_of 3 + scenario_A5.a.size) :=
  ⟨⟨by decide, by decide⟩,
    (index_of_spec scenario_C heap_566 scenario_A5 3 (by decide) (by decide)).2.2⟩

theorem nc_remove_spec_witness :
    (scenario_A5.wf ∧ scenario_A5.valid mixed_calls = true) ∧
    ((scenario_A5.remove 2).1 = true ↔
      ∃ i : Int, 0 ≤ i ∧ i < scenario_A5.size ∧ scenario_A5.get i = some 2) ∧
    ((scenario_A5.remove 2).1 = true →
      ∃ k : Int, 0 ≤ k ∧ k < scenario_A5.size ∧ scenario_A5.get k = some 2 ∧
        (∀ j : Int, 0 ≤ j → j < k → scenario_A5.get j ≠ some 2) ∧
        (scenario_A5.remove 2).2.size = scenario_A5.size - 1 ∧
        (∀ j : Int, 0 ≤ j → j < k → (scenario_A5.remove 2).2.get j = scenario_A5.get j) ∧
        (∀ j : Int, k < j → j < scenario_A5.size →
          (scenario_A5.remove 2).2.get (j - 1) = scenario_A5.get j)) ∧
    ((scenario_A5.remove 2).1 = false → (scenario_A5.remove 2).2 = scenario_A5) ∧
    (scenario_A5.run mixed_calls).2.2.size =
      scenario_A5.size + (scenario_A5.run mixed_calls).1 - (scenario_A5.run mixed_calls).2.1 :=
  ⟨⟨by decide, by decide⟩, nc_remove_spec scenario_A5 2 mixed_calls (by decide) (by decide)⟩

theorem leaf_remove_at_spec_witness :
    (scenario_C.wf ∧ (0 ≤ (1 : Int) ∧ (1 : Int) < scenario_C.count) ∧
      heap_566.wf ∧ (0 ≤ (0 : Int) ∧ (0 : Int) < heap_566.count)) ∧
    ((scenario_C.remove_at 1).size = scenario_C.size - 1 ∧
      (∀ j : Int, 0 ≤ j → j < 1 → (scenario_C.remove_at 1).get j = scenario_C.get j) ∧
      (∀ j : Int, 1 < j → j < scenario_C.count →
        (scenario_C.remove_at 1).get (j - 1) = scenario_C.get j)) ∧
    ((heap_566.remove_at 0).size = heap_566.size - 1 ∧
      (heap_566.remove_at 0).capacity = heap_566.capacity ∧
      (∀ j : Int, 0 ≤ j → j < 0 → (heap_566.remove_at 0).get j = heap_566.get j) ∧
      (∀ j : Int, 0 < j → j < heap_566.count →
        (heap_566.remove_at 0).get (j - 1) = heap_566.get j)) :=
  ⟨⟨by decide, by decide, by decide, by decide⟩,
    leaf_remove_at_spec scenario_C heap_566 1 0 (by decide) (by decide) (by decide)
      (by decide)⟩

/-! ## Where the code departs from its documentation -/

/-- C1 — cast() on scenario D (n = 2, add of 1, 2, 3, 4, 5, heap segment in use):
before the call get(0..4) is 1, 2, 3, 4, 5; the returned view and get(0..4) after
the call are 1, 2, 3, 4 followed by a cell that was never written, so the last
element is lost. The `memmove` shifts `v.size() - a.size()` cells instead of
`v.size()` cells. -/
theorem cast_drops_last_element :
    scenario_D.a.count = 1 ∧ scenario_D.v.count = 4 ∧
    (List.range 5).map (fun i : Nat => scenario_D.get (i : Int)) =
      [some 1, some 2, some 3, some 4, some 5] ∧
    (scenario_D.cast (some zeroed) (some zeroed)).1.take 5 = [1, 2, 3, 4, 0] ∧
    (scenario_D.cast (some zeroed) (some zeroed)).2.size = 5 ∧
    (List.range 5).map
        (fun i : Nat => (scenario_D.cast (some zeroed) (some zeroed)).2.get (i : Int)) =
      [some 1, some 2, some 3, some 4, some 0] := by
  decide

/-- C4 — scenario A (n = 4, add of 0, 1, 2, 3): only the first element is in the
inline segment; 1, 2, 3 are in the heap segment, which was grown to capacity 16.
The guard of add tests `a.size() > 0` where the routing rule needs
`v.size() > 0`. -/
theorem add_routes_second_element_to_heap :
    scenario_A.a.count = 1 ∧ scenario_A.a.a.take 1 = [0] ∧
    scenario_A.v.count = 3 ∧ scenario_A.v.a.take 3 = [1, 2, 3] ∧
    scenario_A.v.capacity = 16 := by
  decide

/-- C6 — n = 4, add of 1, 2 (both segments hold one element), cast(), add of 9:
after cast() the inline count is 0, and the following add stores 9 in the
inline segment, so 9 becomes logical element 0, the element formerly at index 0
moves to index 1, and the last logical element is not 9. -/
theorem add_after_cast_goes_inline :
    both_segments.a.count = 1 ∧ both_segments.v.count = 1 ∧
    after_cast.a.count = 0 ∧ after_cast.v.count = 2 ∧ after_cast.get 0 = some 1 ∧
    (after_cast.add (some zeroed) 9).1 = true ∧
    after_cast_add.a.count = 1 ∧ after_cast_add.v.count = 2 ∧
    after_cast_add.get 0 = some 9 ∧ after_cast_add.get 1 = some 1 ∧
    after_cast_add.get (after_cast_add.size - 1) = some 0 := by
  decide

/-! ## Reserve, resize, growth and repeated cast -/

/-- C17 — on array<t,n>, reserve(k) and resize(k) return true iff 0 <= k < n (so
k == n is rejected); reserve leaves the state unchanged; a successful resize(k)
sets count to k and leaves every storage cell unchanged; a failed resize leaves
the state, hence count, unchanged. -/
theorem array_reserve_resize_spec (s : array t n) (k : Int) :
    ((s.reserve k).1 = true ↔ 0 ≤ k ∧ k < n) ∧
    (s.reserve k).2 = s ∧
    ((s.resize k).1 = true ↔ 0 ≤ k ∧ k < n) ∧
    ((s.resize k).1 = true → (s.resize k).2.count = k ∧ (s.resize k).2.a = s.a) ∧
    ((s.resize k).1 = false → (s.resize k).2 = s ∧ (s.resize k).2.count = s.count) := by
  by_cases h : 0 ≤ k ∧ k < n
  · simp [array.reserve, array.resize, h]
  · simp [array.reserve, array.resize, h]

theorem heap_reserve_none (v : heap_array t) (c : Int) (h : c > v.capacity) :
    v.reserve none c = (false, v) := by
  unfold heap_array.reserve
  rw [if_pos h]
  rfl

/-- C14 — with the first allocation succeeding, a second cast() on nc_array
leaves the state exactly as the first call left it and returns the same view,
so both calls expose the same size() and the same elements. -/
theorem nc_cast_idempotent (s : nc_array t n) (junk : Nat → t)
    (al2 al3 al4 : Option (Nat → t)) (h : s.wf) :
    ((s.cast (some junk) al2).2.cast al3 al4).2 = (s.cast (some junk) al2).2 ∧
    ((s.cast (some junk) al2).2.cast al3 al4).1 = (s.cast (some junk) al2).1 ∧
    ((s.cast (some junk) al2).2.cast al3 al4).2.size = (s.cast (some junk) al2).2.size ∧
    (∀ i : Int, ((s.cast (some junk) al2).2.cast al3 al4).2.get i =
      (s.cast (some junk) al2).2.get i) := by
  have key : ((s.cast (some junk) al2).2.cast al3 al4).2 = (s.cast (some junk) al2).2 ∧
      ((s.cast (some junk) al2).2.cast al3 al4).1 = (s.cast (some junk) al2).1 := by
    obtain ⟨⟨a0, a1, a2⟩, hv⟩ := id h
    obtain ⟨v0, v1, v2⟩ := id hv
    have hsz : s.size = s.a.count + s.v.count := rfl
    by_cases hz : s.v.count = 0
    · rw [nc_cast_inline s _ _ hz]
      dsimp only
      rw [nc_cast_inline s _ _ hz]
      exact ⟨rfl, rfl⟩
    · by_cases hp : s.a.count > 0
      · obtain ⟨_, ⟨_, r2, r3⟩, r4, r5, _⟩ := heap_reserve_ok s.v junk s.size hv
        rw [nc_cast_migrate s _ _ hz hp]
        generalize (s.v.reserve (some junk) s.size).2 = w at r2 r3 r4 r5
        rw [heap_resize_fits _ al2 s.size (by show s.size ≤ w.capacity; omega)]
        dsimp only
        rw [nc_cast_heap _ al3 al4 (by show ¬ s.size = 0; omega)
          (by show ¬ s.a.clear.count > 0; show ¬ (0 : Int) > 0; omega)]
        exact ⟨rfl, rfl⟩
      · rw [nc_cast_heap s _ _ hz hp]
        dsimp only
        rw [nc_cast_heap s _ _ hz hp]
        exact ⟨rfl, rfl⟩
  refine ⟨key.1, key.2, by rw [key.1], fun i => by rw [key.1]⟩

theorem heap_resize_any (v : heap_array t) (al : Option (Nat → t)) (k : Int) (h : v.wf)
    (hk : 0 ≤ k) :
    (v.resize al k).2.wf ∧ v.capacity ≤ (v.resize al k).2.capacity := by
  obtain ⟨h0, h1, h2⟩ := id h
  by_cases hc : k > v.capacity
  · cases al with
    | none =>
      have : v.resize none k = (false, v) := by
        simp [heap_array.resize, heap_reserve_none v k hc]
      rw [this]
      exact ⟨h, le_refl _⟩
    | some junk =>
      obtain ⟨r1, ⟨_, _, r3⟩, r4, r5, _⟩ := heap_reserve_ok v junk k h
      generalize hw : v.reserve (some junk) k = w at r1 r3 r4 r5
      obtain ⟨b, w⟩ := w
      simp only at r1 r3 r4 r5
      subst r1
      have : v.resize (some junk) k = (true, { w with count := k }) := by
        simp [heap_array.resize, hw]
      rw [this]
      refine ⟨⟨hk, ?_, r3⟩, ?_⟩
      · show k ≤ w.capacity
        omega
      · show v.capacity ≤ w.capacity
        omega
  · rw [heap_resize_fits v al k (by omega)]
    exact ⟨⟨hk, by show k ≤ v.capacity; omega, h2⟩, le_refl _⟩

theorem nc_cast_wf (s : nc_array t n) (al1 al2 : Option (Nat → t)) (h : s.wf) :
    (s.cast al1 al2).2.wf ∧ (s.cast al1 al2).2.a.count ≤ s.a.count := by
  obtain ⟨ha, hv⟩ := id h
  obtain ⟨a0, a1, a2⟩ := id ha
  obtain ⟨v0, v1, v2⟩ := id hv
  have hsz : s.size = s.a.count + s.v.count := rfl
  by_cases hz : s.v.count = 0
  · rw [nc_cast_inline s _ _ hz]
    exact ⟨h, le_refl _⟩
  · by_cases hp : s.a.count > 0
    · obtain ⟨⟨r0, r1, r2⟩, _, _⟩ := heap_reserve_any s.v al1 s.size hv
      rw [nc_cast_migrate s _ _ hz hp]
      generalize (s.v.reserve al1 s.size).2 = w at r0 r1 r2
      have hlen : ((memcpy_from (if w.count - s.a.count > 0
          then memmove w.a s.a.count.toNat 0 (w.count - s.a.count).toNat
          else w.a) 0 s.a.a 0 s.a.count.toNat).length : Int) = w.capacity := by
        unfold memcpy_from
        rw [write_length]
        split
        · unfold memmove
          rw [write_length]; exact r2
        · exact r2
      generalize memcpy_from (if w.count - s.a.count > 0
          then memmove w.a s.a.count.toNat 0 (w.count - s.a.count).toNat
          else w.a) 0 s.a.a 0 s.a.count.toNat = M at hlen
      exact ⟨⟨⟨le_refl _, by show (0 : Int) ≤ n; omega, a2⟩,
        (heap_resize_any ({ w with a := M } : heap_array t) al2 s.size ⟨r0, r1, hlen⟩
          (by omega)).1⟩, by show (0 : Int) ≤ _; omega⟩
    · rw [nc_cast_heap s _ _ hz hp]
      exact ⟨h, le_refl _⟩

theorem nc_reserve_wf (s : nc_array t n) (al : Option (Nat → t)) (c : Int) (h : s.wf) :
    (s.reserve al c).2.wf ∧ (s.reserve al c).2.a = s.a := by
  unfold nc_array.reserve
  by_cases hz : s.a.size = 0
  · rw [if_pos hz]
    exact ⟨⟨h.1, (heap_reserve_any s.v al c h.2).1⟩, rfl⟩
  · rw [if_neg hz]
    by_cases hc : c > n
    · rw [if_pos hc]
      exact ⟨⟨h.1, (heap_reserve_any s.v al (c - n) h.2).1⟩, rfl⟩
    · rw [if_neg hc]
      exact ⟨h, rfl⟩

theorem nc_add_count (s : nc_array t n) (al : Option (Nat → t)) (e : t)
    (h1 : s.a.count ≤ 1) : (s.add al e).2.a.count ≤ 1 := by
  by_cases hc : s.a.count > 0 ∨ s.a.count + s.v.count ≥ n
  · rw [nc_add_heap s al e hc]
    exact h1
  · rw [nc_add_inline s al e hc]
    show (s.a.add e).2.count ≤ 1
    unfold array.add
    split
    · exact h1
    · show s.a.count + 1 ≤ 1
      omega

theorem nc_remove_at_count (s : nc_array t n) (i : Int) (h1 : s.a.count ≤ 1) :
    (s.remove_at i).a.count ≤ 1 := by
  have hadd : ∀ x : t, ((s.a.remove_at i).add x).2.count ≤ 1 := by
    intro x
    unfold array.add
    split
    · show s.a.count - 1 ≤ 1
      omega
    · show s.a.count - 1 + 1 ≤ 1
      omega
  by_cases hz : s.v.count = 0
  · rw [nc_remove_at_inline s i hz]
    show s.a.count - 1 ≤ 1
    omega
  · by_cases hlt : i < s.a.count
    · cases hx : load s.v.a 0 with
      | some x =>
        rw [nc_remove_at_migrate s i x hz hlt hx]
        exact hadd x
      | none =>
        have e : s.remove_at i = { a := s.a.remove_at i, v := s.v.remove_at 0 } := by
          simp [nc_array.remove_at, heap_array.size, array.size, heap_array.get, hz, hlt, hx]
        rw [e]
        show s.a.count - 1 ≤ 1
        omega
    · rw [nc_remove_at_heap s i hz hlt]
      exact h1

theorem nc_step_inv [DecidableEq t] (s : nc_array t n) (c : call t) (h : s.wf)
    (h1 : s.a.count ≤ 1) (hok : s.steps_ok [c] = true) :
    (s.step c).wf ∧ (s.step c).a.count ≤ 1 := by
  cases c with
  | add al e => exact ⟨(nc_add_any s al e h).1, nc_add_count s al e h1⟩
  | remove_at i =>
    simp only [nc_array.steps_ok, Bool.and_true, decide_eq_true_eq] at hok
    exact ⟨nc_remove_at_wf s i h hok, nc_remove_at_count s i h1⟩
  | remove e =>
    refine ⟨(nc_remove_any s e h).1, ?_⟩
    show (s.remove e).2.a.count ≤ 1
    unfold nc_array.remove
    dsimp only
    split
    · exact nc_remove_at_count s _ h1
    · exact h1
  | clear =>
    obtain ⟨⟨_, a1, a2⟩, ⟨_, v1, v2⟩⟩ := h
    exact ⟨⟨⟨le_refl _, by show (0 : Int) ≤ n; omega, a2⟩,
      ⟨le_refl _, by show (0 : Int) ≤ s.v.capacity; omega, v2⟩⟩, by show (0 : Int) ≤ 1; omega⟩
  | reserve al c =>
    obtain ⟨w, e⟩ := nc_reserve_wf s al c h
    exact ⟨w, by show (s.reserve al c).2.a.count ≤ 1; rw [e]; exact h1⟩
  | cast al1 al2 =>
    obtain ⟨w, e⟩ := nc_cast_wf s al1 al2 h
    exact ⟨w, le_trans e h1⟩

theorem nc_steps_ok_cons [DecidableEq t] (s : nc_array t n) (c : call t) (r : List (call t))
    (hok : s.steps_ok (c :: r) = true) :
    s.steps_ok [c] = true ∧ (s.step c).steps_ok r = true := by
  cases c <;> simp_all [nc_array.steps_ok, nc_array.step]

theorem nc_steps_inv [DecidableEq t] (cs : List (call t)) : ∀ (s : nc_array t n) (k : Nat),
    s.wf → s.a.count ≤ 1 → s.steps_ok cs = true →
    (s.steps (cs.take k)).wf ∧ (s.steps (cs.take k)).a.count ≤ 1 := by
  induction cs with
  | nil => intro s k h h1 _; simpa [nc_array.steps] using ⟨h, h1⟩
  | cons c r ih =>
    intro s k h h1 hok
    cases k with
    | zero => simpa [nc_array.steps] using ⟨h, h1⟩
    | succ k =>
      obtain ⟨o1, o2⟩ := nc_steps_ok_cons s c r hok
      obtain ⟨w, c1⟩ := nc_step_inv s c h h1 o1
      simp only [List.take_succ_cons, nc_array.steps]
      exact ih (s.step c) k w c1 o2

/-- C20 — on an initially empty nc_array, after every call of a sequence of add,
remove_at (valid index), remove, clear, reserve and cast calls the inline count
is between 0 and 1; and add stores the element in the inline segment exactly
when the inline segment is empty and size() < n, and in the heap segment
otherwise. -/
theorem nc_router_invariant [DecidableEq t] (mem : List t) (cs : List (call t))
    (hm : mem.length = n) (hok : (nc_array.new mem : nc_array t n).steps_ok cs = true) :
    (∀ k : Nat, 0 ≤ ((nc_array.new mem : nc_array t n).steps (cs.take k)).a.count ∧
      ((nc_array.new mem : nc_array t n).steps (cs.take k)).a.count ≤ 1) ∧
    (∀ (s : nc_array t n) (al : Option (Nat → t)) (e : t), 0 ≤ s.a.count →
      (s.a.count = 0 ∧ s.size < n →
        (s.add al e).2.a = (s.a.add e).2 ∧ (s.add al e).2.v = s.v) ∧
      (¬ (s.a.count = 0 ∧ s.size < n) →
        (s.add al e).2.a = s.a ∧ (s.add al e).2.v = (s.v.add al e).2)) := by
  have w : (nc_array.new mem : nc_array t n).wf :=
    ⟨⟨le_refl _, by show (0 : Int) ≤ n; omega, hm⟩, ⟨le_refl _, le_refl _, rfl⟩⟩
  refine ⟨fun k => ?_, fun s al e h0 => ⟨fun hc => ?_, fun hc => ?_⟩⟩
  · obtain ⟨q, c⟩ := nc_steps_inv cs (nc_array.new mem) k w (by show (0 : Int) ≤ 1; omega) hok
    exact ⟨q.1.1, c⟩
  · have hsz : s.size = s.a.count + s.v.count := rfl
    rw [nc_add_inline s al e (by omega)]
    exact ⟨rfl, rfl⟩
  · have hsz : s.size = s.a.count + s.v.count := rfl
    rw [nc_add_heap s al e (by omega)]
    exact ⟨rfl, rfl⟩

/-! ## Resizing an nc_array, and further instances -/

/-- C13 — `nc_array<int,2>` holding 1, 2, 3 (inline count 1, heap count 2):
resize(2) returns false, yet the heap segment has been cleared and size() went
from 3 to 1. -/
theorem nc_resize_failure_clears_heap :
    three_in_two.a.count = 1 ∧ three_in_two.v.count = 2 ∧ three_in_two.size = 3 ∧
    (three_in_two.resize (some zeroed) 2).1 = false ∧
    (three_in_two.resize (some zeroed) 2).2.a.count = 1 ∧
    (three_in_two.resize (some zeroed) 2).2.v.count = 0 ∧
    (three_in_two.resize (some zeroed) 2).2.size = 1 ∧
    (three_in_two.resize (some zeroed) 2).2 ≠ three_in_two := by
  decide

/-- C19 — `nc_array<int,4>` holding 1, 2 (inline count 1, heap count 1):
resize(10) returns true and size() is 7 afterwards, not 10. -/
theorem nc_resize_size_off_by_inline :
    both_segments.a.count = 1 ∧ both_segments.v.count = 1 ∧
    (both_segments.resize (some zeroed) 10).1 = true ∧
    (both_segments.resize (some zeroed) 10).2.a.count = 1 ∧
    (both_segments.resize (some zeroed) 10).2.v.count = 6 ∧
    (both_segments.resize (some zeroed) 10).2.size = 7 := by
  decide

theorem array_reserve_resize_spec_witness :
    ((scenario_C.reserve 3).1 = true ↔ (0 : Int) ≤ 3 ∧ (3 : Int) < (3 : Nat)) ∧
    (scenario_C.reserve 3).2 = scenario_C ∧
    ((scenario_C.resize 3).1 = true ↔ (0 : Int) ≤ 3 ∧ (3 : Int) < (3 : Nat)) ∧
    ((scenario_C.resize 3).1 = true →
      (scenario_C.resize 3).2.count = 3 ∧ (scenario_C.resize 3).2.a = scenario_C.a) ∧
    ((scenario_C.resize 3).1 = false →
      (scenario_C.resize 3).2 = scenario_C ∧ (scenario_C.resize 3).2.count = scenario_C.count) :=
  array_reserve_resize_spec scenario_C 3

theorem nc_cast_idempotent_witness :
    scenario_D.wf ∧
    ((scenario_D.cast (some zeroed) none).2.cast none none).2 =
      (scenario_D.cast (some zeroed) none).2 ∧
    ((scenario_D.cast (some zeroed) none).2.cast none none).1 =
      (scenario_D.cast (some zeroed) none).1 ∧
    ((scenario_D.cast (some zeroed) none).2.cast none none).2.size =
      (scenario_D.cast (some zeroed) none).2.size ∧
    (∀ i : Int, ((scenario_D.cast (some zeroed) none).2.cast none none).2.get i =
      (scenario_D.cast (some zeroed) none).2.get i) :=
  ⟨by decide, nc_cast_idempotent scenario_D zeroed none none none (by decide)⟩

theorem nc_router_invariant_witness :
    (([7, 7] : List Int).length = 2 ∧
      (nc_array.new [7, 7] : nc_array Int 2).steps_ok router_calls = true) ∧
    (∀ k : Nat,
      0 ≤ ((nc_array.new [7, 7] : nc_array Int 2).steps (router_calls.take k)).a.count ∧
      ((nc_array.new [7, 7] : nc_array Int 2).steps (router_calls.take k)).a.count ≤ 1) :=
  ⟨⟨rfl, by decide⟩, (nc_router_invariant [7, 7] router_calls rfl (by decide)).1⟩

end Arrays
